import Mathlib

/-!
Verification of the ai-task-bot task-decomposition pipeline.

Each section shallowly embeds one module of the Python source
(`src/utils/rate_limiter.py`, `src/utils/retry.py`, `src/ai/workflow.py`,
`src/utils/duplicate_checker.py`, `src/utils/title_validator.py`,
`src/ai/gemini_client.py`, `src/repository/analyzer.py`) and proves or
refutes the specified properties.  Timestamps, delays and confidence
values are modelled as rationals (exact stand-ins for Python floats on
the inputs of interest); strings are modelled as `List Char`.
-/

namespace RateLimiter

/-- Window pruning step of `RateLimiter.acquire` (`src/utils/rate_limiter.py`):
`while self.requests and self.requests[0] < now - self.window_seconds:
self.requests.popleft()`.  Popping from the front while the head is expired
is `dropWhile` on the list of timestamps (front = oldest). -/
def pruneWindow (W : ℚ) (requests : List ℚ) (now : ℚ) : List ℚ :=
  requests.dropWhile (fun s => decide (s < now - W))

/-- Result of one `acquire` call.  `granted q` means the caller was admitted and
the request deque is now `q`.  `stuck` means the call never returns: either
`sleep_time > 0`, in which case the code sleeps and then recursively calls
`acquire`, which awaits the already-held non-reentrant `asyncio.Lock` and
blocks forever; or (`max_requests = 0` edge) `self.requests[0]` raises
`IndexError` on the empty deque. -/
inductive AcquireResult where
  | granted (requests : List ℚ)
  | stuck
deriving DecidableEq

/-- Rate-limit-reached branch of `acquire`: `oldest = self.requests[0]`
(an `IndexError`, hence `stuck`, on the empty deque — reachable only for
`max_requests = 0`), `sleep_time = (oldest + window_seconds) - now`; a
positive sleep leads to the recursive re-acquire on the held lock (`stuck`);
otherwise the code falls through and appends `now`. -/
def acquireAtLimit (W : ℚ) (now : ℚ) : List ℚ → AcquireResult
  | [] => .stuck
  | oldest :: rest =>
    if 0 < oldest + W - now then .stuck
    else .granted ((oldest :: rest) ++ [now])

/-- One call of `RateLimiter.acquire` at wall-clock time `now`, for
`max_requests = m`, `window_seconds = W`, with current deque `requests`.
Mirrors the body: prune expired entries; if the remaining count reaches
`max_requests`, run the rate-limit branch; otherwise append `now`. -/
def acquire (m : ℕ) (W : ℚ) (requests : List ℚ) (now : ℚ) : AcquireResult :=
  if m ≤ (pruneWindow W requests now).length then acquireAtLimit W now (pruneWindow W requests now)
  else .granted (pruneWindow W requests now ++ [now])

/-- Run a sequence of `acquire` calls at the given wall-clock times
(serialized by the lock), starting from deque `requests` with the list of
already admitted call times `admitted`.  Once one call is `stuck` it holds
the lock forever, so no later call is admitted either. -/
def runCalls (m : ℕ) (W : ℚ) : List ℚ → List ℚ → List ℚ → List ℚ
  | _, admitted, [] => admitted
  | requests, admitted, t :: ts =>
    match acquire m W requests t with
    | .granted q => runCalls m W q (admitted ++ [t]) ts
    | .stuck => admitted

/-- Timestamps of the admitted calls for a fresh limiter and call times `ts`. -/
def admittedCalls (m : ℕ) (W : ℚ) (ts : List ℚ) : List ℚ :=
  runCalls m W [] [] ts

/-- Number of admitted timestamps lying in the trailing window `(τ - W, τ]`. -/
def windowCount (A : List ℚ) (W τ : ℚ) : ℕ :=
  (A.filter (fun s => decide (τ - W < s) && decide (s ≤ τ))).length

/-- Run invariant for the amended sliding-window property: `A` is the strictly
increasing list of admitted call times, all at most `b` (the last processed
call time), the deque holds exactly the admitted times that survived the last
pruning, and every trailing half-open window `(τ - W, τ]` holds at most `m`
admitted times. -/
structure Inv (m : ℕ) (W : ℚ) (q A : List ℚ) (b : ℚ) : Prop where
  sorted : A.Pairwise (· < ·)
  le_b : ∀ a ∈ A, a ≤ b
  rep : q = A.filter (fun s => decide (b - W ≤ s))
  safe : ∀ τ, windowCount A W τ ≤ m

end RateLimiter

namespace Retry

/-- Loop of the `wrapper` produced by `retry_with_backoff(max_retries,
base_delay)` (`src/utils/retry.py`).  The wrapped operation is modelled by
the outcomes `op attempt` of its successive invocations (`Except.error`
models the call raising).  `for attempt in range(max_retries)`: try the
call; on success return its value; on failure re-raise when
`attempt == max_retries - 1`, else sleep `base_delay * 2 ** attempt` and
continue.  Falling off the loop (only possible for `max_retries = 0`)
returns Python `None`, modelled `Except.ok none`.  The second component
accumulates the total slept time. -/
def retryGo {E A : Type} (maxRetries : ℕ) (baseDelay : ℚ) (op : ℕ → Except E A) :
    ℕ → ℚ → Except E (Option A) × ℚ
  | attempt, slept =>
    if attempt < maxRetries then
      match op attempt with
      | .ok v => (.ok (some v), slept)
      | .error e =>
        if attempt = maxRetries - 1 then (.error e, slept)
        else retryGo maxRetries baseDelay op (attempt + 1) (slept + baseDelay * 2 ^ attempt)
    else (.ok none, slept)
termination_by attempt _ => maxRetries - attempt
decreasing_by omega

/-- A call of the wrapped operation: run the retry loop from attempt `0`
with nothing slept yet. -/
def retryWithBackoff {E A : Type} (maxRetries : ℕ) (baseDelay : ℚ)
    (op : ℕ → Except E A) : Except E (Option A) × ℚ :=
  retryGo maxRetries baseDelay op 0 0

end Retry

namespace Workflow

/-- A created GitHub issue as accumulated by `_create_issues`
(`title` and `url`). -/
structure Issue where
  title : String
  url : String
deriving DecidableEq

/-- The `WorkflowState` TypedDict of `src/ai/workflow.py`.  `repo_path` is
the cloned snapshot path, `subtasks` the titles produced by the breakdown
agent, `error` the terminal error (empty string = no error, matching the
Python truthiness test `state.get("error")`). -/
structure WorkflowState where
  task_description : String
  repo_url : String
  repo_path : Option String
  is_implemented : Bool
  confidence : ℚ
  subtasks : List String
  created_issues : List Issue
  error : String
deriving DecidableEq

/-- Outcomes of the external effects invoked by the workflow nodes: the
snapshot clone (`RepositoryCloner.clone_or_update`), the oracle analysis
(`analyze_implementation_status`, yielding `is_implemented` and
`confidence`), the task breakdown, and the issue-creation pass.  An
`Except.error` models the corresponding Python call raising, with the
exception text. -/
structure Env where
  cloneResult : Except String String
  analysisResult : Except String (Bool × ℚ)
  breakdownResult : Except String (List String)
  createResult : Except String (List Issue)

/-- `CreateTaskWorkflow._clone_repo`: on success records the repo path; on
exception records the terminal error `"Clone failed: ..."`. -/
def cloneRepoNode (env : Env) (s : WorkflowState) : WorkflowState :=
  match env.cloneResult with
  | .ok p => { s with repo_path := some p }
  | .error e => { s with error := "Clone failed: " ++ e }

/-- `CreateTaskWorkflow._analyze_implementation`: on success records the
verdict and confidence; on exception records `"Analysis failed: ..."`. -/
def analyzeImplementationNode (env : Env) (s : WorkflowState) : WorkflowState :=
  match env.analysisResult with
  | .ok (impl, conf) => { s with is_implemented := impl, confidence := conf }
  | .error e => { s with error := "Analysis failed: " ++ e }

/-- `CreateTaskWorkflow._breakdown_task`: on success records the subtasks;
on exception records `"Breakdown failed: ..."`. -/
def breakdownTaskNode (env : Env) (s : WorkflowState) : WorkflowState :=
  match env.breakdownResult with
  | .ok subs => { s with subtasks := subs }
  | .error e => { s with error := "Breakdown failed: " ++ e }

/-- `CreateTaskWorkflow._create_issues`: on success records the accumulated
created issues; on exception records `"Issue creation failed: ..."`. -/
def createIssuesNode (env : Env) (s : WorkflowState) : WorkflowState :=
  match env.createResult with
  | .ok issues => { s with created_issues := issues }
  | .error e => { s with error := "Issue creation failed: " ++ e }

/-- `CreateTaskWorkflow._should_create_tasks`: `"skip"` when a terminal
error is recorded (non-empty string) or when the verdict is implemented
with confidence strictly above `0.7`; otherwise `"create"`. -/
def shouldCreateTasks (s : WorkflowState) : String :=
  if s.error ≠ "" then "skip"
  else if s.is_implemented = true ∧ 7/10 < s.confidence then "skip"
  else "create"

/-- Workflow node names, for recording which LangGraph nodes executed. -/
inductive WNode where
  | clone_repo
  | analyze_implementation
  | breakdown_task
  | create_issues
deriving DecidableEq

/-- Execution of the graph compiled by `CreateTaskWorkflow._build_workflow`:
entry point `clone_repo`, unconditional edge `clone_repo →
analyze_implementation`, conditional edges from `analyze_implementation` via
`_should_create_tasks` (`"create" → breakdown_task`, `"skip" → END`), then
`breakdown_task → create_issues → END`.  Returns the final state and the
list of executed nodes, in execution order. -/
def runWorkflow (env : Env) (s0 : WorkflowState) : WorkflowState × List WNode :=
  let s1 := cloneRepoNode env s0
  let s2 := analyzeImplementationNode env s1
  if shouldCreateTasks s2 = "create" then
    let s3 := breakdownTaskNode env s2
    let s4 := createIssuesNode env s3
    (s4, [.clone_repo, .analyze_implementation, .breakdown_task, .create_issues])
  else
    (s2, [.clone_repo, .analyze_implementation])

/-- The `initial_state` built by `CreateTaskWorkflow.execute`. -/
def initialState (task_description repo_url : String) : WorkflowState :=
  { task_description := task_description
    repo_url := repo_url
    repo_path := none
    is_implemented := false
    confidence := 0
    subtasks := []
    created_issues := []
    error := "" }
end Workflow

namespace TitleValidator

/-- Python `str.isspace` / regex `\s` on the ASCII range (space, tab,
newline, carriage return, vertical tab, form feed). -/
def isPySpace (c : Char) : Bool :=
  c == ' ' || c == '\t' || c == '\n' || c == '\r' || c == Char.ofNat 11 || c == Char.ofNat 12

/-- The regex character class `[a-z0-9\-]` (case-sensitive). -/
def isScopeChar (c : Char) : Bool :=
  decide (('a' ≤ c ∧ c ≤ 'z') ∨ ('0' ≤ c ∧ c ≤ '9') ∨ c = '-')

/-- The ASCII upper-to-lower case table. -/
def lowerTable : List (Char × Char) :=
  [('A', 'a'), ('B', 'b'), ('C', 'c'), ('D', 'd'), ('E', 'e'), ('F', 'f'), ('G', 'g'), ('H', 'h'), ('I', 'i'), ('J', 'j'), ('K', 'k'), ('L', 'l'), ('M', 'm'), ('N', 'n'), ('O', 'o'), ('P', 'p'), ('Q', 'q'), ('R', 'r'), ('S', 's'), ('T', 't'), ('U', 'u'), ('V', 'v'), ('W', 'w'), ('X', 'x'), ('Y', 'y'), ('Z', 'z')]

/-- Python `str.lower` on one character, ASCII range: map `A`–`Z` to
`a`–`z`, leave everything else unchanged. -/
def lowerChar (c : Char) : Char :=
  ((lowerTable.find? (fun p => p.1 == c)).map Prod.snd).getD c

/-- `VALID_TYPES` — the closed set of Conventional Commits types, in the
order of the `CONVENTIONAL_PATTERN` alternation
(`feat|fix|docs|style|refactor|perf|test|chore|ci|build`). -/
def validTypes : List (List Char) :=
  ["feat".toList, "fix".toList, "docs".toList, "style".toList, "refactor".toList,
   "perf".toList, "test".toList, "chore".toList, "ci".toList, "build".toList]

/-- Regex alternation of type keywords as a prefix matcher: try each
alternative in order, returning the matched keyword and the rest of the
input.  (No keyword is a prefix of another, so the order is immaterial for
acceptance.) -/
def matchTypeAux : List (List Char) → List Char → Option (List Char × List Char)
  | [], _ => none
  | ty :: tys, t => if ty.isPrefixOf t then some (ty, t.drop ty.length) else matchTypeAux tys t

/-- The `(feat|fix|...)` group of `CONVENTIONAL_PATTERN`. -/
def matchType (t : List Char) : Option (List Char × List Char) :=
  matchTypeAux validTypes t

/-- The literal `)` closing the scope group. -/
def closeParenSplit : List Char → Option (List Char)
  | [] => none
  | c :: r => if c = ')' then some r else none

/-- The scope group `(\([a-z0-9\-]+\))?` tried at the current position:
an opening parenthesis, a nonempty greedy run of scope characters, a closing
parenthesis.  Returns the captured scope and the rest, or `none` when the
optional group matches empty. -/
def matchScope : List Char → Option (List Char × List Char)
  | [] => none
  | c :: r =>
    if c = '(' then
      if r.takeWhile isScopeChar = [] then none
      else
        match closeParenSplit (r.drop (r.takeWhile isScopeChar).length) with
        | some r2 => some (r.takeWhile isScopeChar, r2)
        | none => none
    else none

/-- The optional bang `!?`. -/
def matchBang : List Char → List Char
  | [] => []
  | c :: r => if c = '!' then r else c :: r

/-- The literal `:` of the pattern: consume a leading colon or fail. -/
def colonSplit : List Char → Option (List Char)
  | [] => none
  | c :: r => if c = ':' then some r else none

/-- Python `$`-aware condition for what `.{1,}$` can match: a nonempty
newline-free block, optionally followed by one final newline (`$` matches
just before a trailing newline). -/
def descTailOk (d : List Char) : Bool :=
  decide (d ≠ []) &&
    (decide ('\n' ∉ d) ||
      (decide (d.getLast? = some '\n') && decide (d.dropLast ≠ []) &&
        decide ('\n' ∉ d.dropLast)))

/-- The regex tail `\s+.{1,}$` after the colon: some split of the input into
a nonempty all-whitespace block and a valid description tail. -/
def tailMatch (s : List Char) : Bool :=
  (List.range (s.length + 1)).any (fun k =>
    decide (1 ≤ k) && (s.take k).all isPySpace && descTailOk (s.drop k))

/-- The anchored `CONVENTIONAL_PATTERN` as a whole-string matcher:
`^(feat|...)(\([a-z0-9\-]+\))?!?:\s+.{1,}$`. -/
def conventionalMatch (t : List Char) : Bool :=
  match matchType t with
  | none => false
  | some (_, r) =>
    let r1 := match matchScope r with
      | some (_, r2) => r2
      | none => r
    match colonSplit (matchBang r1) with
    | some r3 => tailMatch r3
    | none => false

/-- `is_conventional_format` (`src/utils/title_validator.py`): empty titles
and titles longer than `MAX_TITLE_LENGTH = 256` are rejected up front, the
rest are matched against `CONVENTIONAL_PATTERN`. -/
def is_conventional_format (t : List Char) : Bool :=
  if t = [] ∨ 256 < t.length then false
  else conventionalMatch t

/-- Python `str.strip()`: drop whitespace from both ends. -/
def stripChars (s : List Char) : List Char :=
  ((s.dropWhile isPySpace).reverse.dropWhile isPySpace).reverse

/-- Split position chosen by the greedy `\s*` before `(.+)$` in
`parse_title_components`: the largest all-whitespace prefix length whose
remainder can still be matched by `(.+)$`. -/
def parseDescSplit (s : List Char) : Option ℕ :=
  (List.range (s.length + 1)).reverse.find? (fun k =>
    (s.take k).all isPySpace && descTailOk (s.drop k))

/-- The text captured by `(.+)` out of the remainder: everything except a
trailing newline consumed by `$`. -/
def capturedDesc (d : List Char) : List Char :=
  if d.getLast? = some '\n' ∧ '\n' ∉ d.dropLast then d.dropLast else d

/-- `parse_title_components`: match
`^(feat|...)(?:\(([a-z0-9\-]+)\))?!?:\s*(.+)$` and return
`(type, scope?, description.strip())`. -/
def parse_title_components (t : List Char) :
    Option (List Char × Option (List Char) × List Char) :=
  match matchType t with
  | none => none
  | some (ty, r) =>
    let scr := match matchScope r with
      | some (sc, r2) => (some sc, r2)
      | none => (none, r)
    match colonSplit (matchBang scr.2) with
    | some r3 =>
      match parseDescSplit r3 with
      | some k => some (ty, scr.1, stripChars (capturedDesc (r3.drop k)))
      | none => none
    | none => none

/-- Python substring containment `needle in haystack`. -/
def isSubstring (needle : List Char) : List Char → Bool
  | [] => needle.isEmpty
  | c :: rest => needle.isPrefixOf (c :: rest) || isSubstring needle rest

/-- Keyword containment test (`word in description_lower`). -/
def containsAny (dl : List Char) (words : List String) : Bool :=
  words.any (fun w => isSubstring w.toList dl)

/-- `infer_type_from_description`: keyword scan over the lowercased
description, first matching category wins, defaulting to `feat`. -/
def infer_type_from_description (description : List Char) : List Char :=
  let dl := description.map lowerChar
  if containsAny dl ["fix", "bug", "error", "issue"] then "fix".toList
  else if containsAny dl ["docs", "documentation", "readme"] then "docs".toList
  else if containsAny dl ["test", "testing"] then "test".toList
  else if containsAny dl ["refactor", "cleanup", "reorganize"] then "refactor".toList
  else if containsAny dl ["performance", "optimize", "speed"] then "perf".toList
  else if containsAny dl ["style", "format", "lint"] then "style".toList
  else if containsAny dl ["ci", "pipeline", "deploy"] then "ci".toList
  else if containsAny dl ["build", "compile", "dependency"] then "build".toList
  else if containsAny dl ["chore", "maintenance"] then "chore".toList
  else "feat".toList

/-- The leading `^([a-z0-9\-]+):\s*` pattern of
`extract_scope_from_description` (case-sensitive). -/
def leadingScopeColon (d : List Char) : Option (List Char) :=
  if d.takeWhile isScopeChar = [] then none
  else
    match colonSplit (d.drop (d.takeWhile isScopeChar).length) with
    | some _ => some (d.takeWhile isScopeChar)
    | none => none

/-- `extract_scope_from_description`: a leading `word:` pattern, else a
small set of domain keywords over the lowercased description. -/
def extract_scope_from_description (description : List Char) : Option (List Char) :=
  match leadingScopeColon description with
  | some sc => some sc
  | none =>
    let dl := description.map lowerChar
    if isSubstring "api".toList dl then some "api".toList
    else if isSubstring "ui".toList dl || isSubstring "frontend".toList dl then some "ui".toList
    else if isSubstring "backend".toList dl then some "backend".toList
    else if isSubstring "database".toList dl || isSubstring "db".toList dl then some "db".toList
    else if isSubstring "auth".toList dl then some "auth".toList
    else none

/-- The f-string stem `f"{type_}({scope}): "` / `f"{type_}: "` of
`format_title`. -/
def titleStem (type_ : List Char) (scope : Option (List Char)) : List Char :=
  match scope with
  | some sc => type_ ++ '(' :: sc ++ [')', ':', ' ']
  | none => type_ ++ [':', ' ']

/-- Python slice `d[:n]` where `n` may be negative (counts from the end;
far-negative yields the empty list). -/
def pySlice (d : List Char) (n : ℤ) : List Char :=
  if 0 ≤ n then d.take n.toNat else d.take ((d.length : ℤ) + n).toNat

/-- `format_title(type_, scope, description)`: lower-case the first letter
of the description, assemble `type(scope): description`; when the result
exceeds `MAX_TITLE_LENGTH = 256`, re-assemble with the description cut to
`MAX - len(stem) - 3` characters plus an ellipsis. -/
def format_title (type_ : List Char) (scope : Option (List Char))
    (description : List Char) : List Char :=
  let description := match description with
    | [] => []
    | c :: cs => lowerChar c :: cs
  let title := titleStem type_ scope ++ description
  if 256 < title.length then
    let available : ℤ := 256 - ((titleStem type_ scope).length : ℤ) - 3
    titleStem type_ scope ++ (pySlice description available ++ "...".toList)
  else title

/-- Case-insensitive prefix test, for the `re.sub(..., flags=re.IGNORECASE)`
that removes an extracted scope prefix from the description. -/
def ciPrefixOf : List Char → List Char → Bool
  | [], _ => true
  | _ :: _, [] => false
  | a :: as, b :: bs => (lowerChar a == lowerChar b) && ciPrefixOf as bs

/-- `re.sub(r'^' + scope + r':\s*', '', description, flags=re.IGNORECASE)`:
when the description starts (case-insensitively) with `scope:`, remove that
prefix and the following whitespace run. -/
def stripScopeColon (scope description : List Char) : List Char :=
  if ciPrefixOf (scope ++ [':']) description then
    (description.drop (scope.length + 1)).dropWhile isPySpace
  else description

/-- `validate_and_format_title(title, auto_fix)`: return the title unchanged
if it already matches; otherwise (with `auto_fix`) re-assemble it from parsed
or inferred components. -/
def validate_and_format_title (title : List Char) (auto_fix : Bool) :
    List Char × Bool :=
  if is_conventional_format title then (title, false)
  else if !auto_fix then (title, false)
  else
    match parse_title_components title with
    | some (ty, sc, desc) => (format_title ty sc desc, true)
    | none =>
      let description := title
      let scope := extract_scope_from_description description
      let type_ := infer_type_from_description description
      let description := match scope with
        | some sc => stripScopeColon sc description
        | none => description
      (format_title type_ scope description, true)

/-- The `description` argument that `validate_and_format_title`'s auto-fix
path hands to `format_title` (derived observer, used to state the amended
C6 hypotheses on the input title). -/
def pipelineDesc (title : List Char) : List Char :=
  match parse_title_components title with
  | some (_, _, desc) => desc
  | none =>
    match extract_scope_from_description title with
    | some sc => stripScopeColon sc title
    | none => title

end TitleValidator

namespace TitleValidator

/-- The optional `(scope)` segment of an assembled title. -/
def scopePart : Option (List Char) → List Char
  | some s => '(' :: s ++ [')']
  | none => []

/-- The title grammar as the amended C7 states it: a type from the code's
closed set, an optional nonempty scope over `[a-z0-9-]`, an optional `!`,
a colon, at least one whitespace character, a nonempty newline-free
description, an optional single trailing newline, and at most 256
characters overall. -/
def conventionalGrammar (t : List Char) : Prop :=
  t.length ≤ 256 ∧
  ∃ (ty : List Char) (sc : Option (List Char)) (bang : Bool) (ws desc : List Char) (nl : Bool),
    ty ∈ validTypes ∧
    (∀ s, sc = some s → s ≠ [] ∧ s.all isScopeChar = true) ∧
    ws ≠ [] ∧ ws.all isPySpace = true ∧
    desc ≠ [] ∧ '\n' ∉ desc ∧
    t = ty ++ scopePart sc ++ (if bang = true then ['!'] else []) ++
      ':' :: (ws ++ desc ++ (if nl = true then ['\n'] else []))

/-- The type set of the frozen claim C7, verbatim (`feature` and
`performance` instead of the code's `feat` and `perf`). -/
def claimedTypes : List (List Char) :=
  ["feature".toList, "fix".toList, "docs".toList, "style".toList, "refactor".toList,
   "performance".toList, "test".toList, "chore".toList, "ci".toList, "build".toList]

/-- The grammar exactly as the claim words it: `type(scope)?: description`
over the claimed type set, with a non-empty description after a colon and a
space. -/
def claimedGrammarCheck (t : List Char) : Bool :=
  match matchTypeAux claimedTypes t with
  | none => false
  | some (_, r) =>
    let r1 := match matchScope r with
      | some (_, r2) => r2
      | none => r
    match r1 with
    | ':' :: ' ' :: d => decide (d ≠ [])
    | _ => false

end TitleValidator

namespace DuplicateChecker

/-- An existing tracker item as seen by the duplicate checker (only the
`title` field participates in matching). -/
structure IssueRec where
  title : List Char
deriving DecidableEq

/-- Case-insensitive variant of the scope character class (the prefix regex
of `normalize_title` carries `re.IGNORECASE`). -/
def isScopeCharCI (c : Char) : Bool :=
  TitleValidator.isScopeChar (TitleValidator.lowerChar c)

/-- Case-insensitive type-keyword alternation for the prefix regex. -/
def ciMatchTypeAux : List (List Char) → List Char → Option (List Char)
  | [], _ => none
  | ty :: tys, t =>
    if TitleValidator.ciPrefixOf ty t then some (t.drop ty.length) else ciMatchTypeAux tys t

/-- Case-insensitive scope group of the prefix regex. -/
def ciMatchScope : List Char → Option (List Char)
  | [] => none
  | c :: r =>
    if c = '(' then
      if r.takeWhile isScopeCharCI = [] then none
      else
        match TitleValidator.closeParenSplit (r.drop (r.takeWhile isScopeCharCI).length) with
        | some r2 => some r2
        | none => none
    else none

/-- The `re.sub` of `normalize_title`
(`^(feat|fix|docs|style|refactor|perf|test|chore|ci|build)(\([a-z0-9\-]+\))?!?:\s*`
with `IGNORECASE`, replaced by the empty string): when the anchored prefix
pattern matches, remove it; otherwise return the title unchanged. -/
def ciStripConvPrefix (t : List Char) : List Char :=
  match ciMatchTypeAux TitleValidator.validTypes t with
  | none => t
  | some r =>
    let r1 := match ciMatchScope r with
      | some r2 => r2
      | none => r
    match TitleValidator.colonSplit (TitleValidator.matchBang r1) with
    | some r3 => r3.dropWhile TitleValidator.isPySpace
    | none => t

/-- `normalize_title` (`src/utils/duplicate_checker.py`): strip the
conventional-commit prefix, lowercase, strip surrounding whitespace. -/
def normalize_title (title : List Char) : List Char :=
  TitleValidator.stripChars ((ciStripConvPrefix title).map TitleValidator.lowerChar)

/-- Length of the longest common prefix of two strings. -/
def commonRun : List Char → List Char → ℕ
  | a :: as, b :: bs => if a = b then commonRun as bs + 1 else 0
  | _, _ => 0

/-- `difflib.SequenceMatcher.find_longest_match` over the whole strings (no
junk, autojunk inert on short inputs): the longest common substring, with
ties broken towards the earliest start in `a`, then in `b`. -/
def longestMatch (a b : List Char) : ℕ × ℕ × ℕ :=
  (List.range a.length).foldl (fun best i =>
    (List.range b.length).foldl (fun best j =>
      if best.2.2 < commonRun (a.drop i) (b.drop j) then (i, j, commonRun (a.drop i) (b.drop j))
      else best) best) (0, 0, 0)

/-- Total matched characters of `get_matching_blocks` (Ratcliff–Obershelp):
take the longest match, recurse on the fragments to its left and right.
`fuel` bounds the recursion depth; `a.length + b.length + 1` always
suffices since every recursive call strictly shrinks the fragments. -/
def matchSumFuel : ℕ → List Char → List Char → ℕ
  | 0, _, _ => 0
  | fuel + 1, a, b =>
    let lm := longestMatch a b
    if lm.2.2 = 0 then 0
    else lm.2.2 + matchSumFuel fuel (a.take lm.1) (b.take lm.2.1)
        + matchSumFuel fuel (a.drop (lm.1 + lm.2.2)) (b.drop (lm.2.1 + lm.2.2))

def matchSum (a b : List Char) : ℕ :=
  matchSumFuel (a.length + b.length + 1) a b

/-- `calculate_similarity`: `SequenceMatcher(None, s1.lower(), s2.lower()).ratio()`
= `2 * M / T` with `M` the matched total and `T` the combined length
(`1.0` when both strings are empty). -/
def calculate_similarity (s1 s2 : List Char) : ℚ :=
  if (s1.map TitleValidator.lowerChar).length + (s2.map TitleValidator.lowerChar).length = 0 then 1
  else 2 * (matchSum (s1.map TitleValidator.lowerChar) (s2.map TitleValidator.lowerChar) : ℚ) /
    (((s1.map TitleValidator.lowerChar).length : ℚ) + ((s2.map TitleValidator.lowerChar).length : ℚ))

/-- The accumulation loop of `find_similar_issues`: keep `(issue, similarity)`
for every existing issue whose normalized-title similarity reaches the
threshold, in input order. -/
def collectSimilar (normalizedNew : List Char) (threshold : ℚ) :
    List IssueRec → List (IssueRec × ℚ)
  | [] => []
  | issue :: rest =>
    if threshold ≤ calculate_similarity normalizedNew (normalize_title issue.title) then
      (issue, calculate_similarity normalizedNew (normalize_title issue.title))
        :: collectSimilar normalizedNew threshold rest
    else collectSimilar normalizedNew threshold rest

/-- Stable descending insertion by similarity (Python `list.sort` with
`reverse=True` is stable; ties keep input order). -/
def insertDesc (x : IssueRec × ℚ) : List (IssueRec × ℚ) → List (IssueRec × ℚ)
  | [] => [x]
  | y :: ys => if y.2 < x.2 then x :: y :: ys else y :: insertDesc x ys

def sortDesc : List (IssueRec × ℚ) → List (IssueRec × ℚ)
  | [] => []
  | x :: xs => insertDesc x (sortDesc xs)

/-- `find_similar_issues(new_title, existing_issues, threshold, max_results)`. -/
def find_similar_issues (new_title : List Char) (existing : List IssueRec)
    (threshold : ℚ) (max_results : ℕ) : List (IssueRec × ℚ) :=
  (sortDesc (collectSimilar (normalize_title new_title) threshold existing)).take max_results

/-- `check_for_duplicates`: a duplicate is reported iff the similar-issue
list is nonempty. -/
def check_for_duplicates (new_title : List Char) (existing : List IssueRec)
    (threshold : ℚ) : Bool × List (IssueRec × ℚ) :=
  (decide (find_similar_issues new_title existing threshold 5 ≠ []),
    find_similar_issues new_title existing threshold 5)

end DuplicateChecker

namespace Analyzer

/-- A function/class definition extracted by
`CodeParser.extract_relevant_code` (tree-sitter), as consumed by
`read_code_intelligently`: the dict keys `type`, `name`, `docstring`,
`code`. -/
structure CodeDefn where
  dtype : List Char
  name : List Char
  docstring : List Char
  code : List Char
deriving DecidableEq

/-- A candidate file handed to the extraction loop: its suffix, its path
relative to the repository root, and the definitions tree-sitter extracts
from it (the result of `extract_relevant_code`, parameterizing over the
keyword filter and parse outcome). -/
structure PyFile where
  suffix : List Char
  relPath : List Char
  defns : List CodeDefn
deriving DecidableEq

/-- The inner `for definition in definitions` loop of
`read_code_intelligently`: stop at `max_functions`; stop before any
definition whose code would push `total_chars` over `max_chars` (the
definition is dropped whole, never truncated); otherwise append the
definition (with its file path, for the markdown header) and add the code
length to the running totals. -/
def innerLoop (maxFunctions maxChars : ℕ) (relPath : List Char) :
    List CodeDefn → ℕ → ℕ → List (List Char × CodeDefn) →
      List (List Char × CodeDefn) × ℕ × ℕ
  | [], total, count, acc => (acc, total, count)
  | d :: ds, total, count, acc =>
    if maxFunctions ≤ count then (acc, total, count)
    else if maxChars < total + d.code.length then (acc, total, count)
    else innerLoop maxFunctions maxChars relPath ds (total + d.code.length) (count + 1)
      (acc ++ [(relPath, d)])

/-- The outer `for file_path in relevant_files` loop: skip non-`.py` files
and files without extracted definitions; run the inner loop; stop entirely
once the function cap or the character budget is reached. -/
def outerLoop (maxFunctions maxChars : ℕ) :
    List PyFile → ℕ → ℕ → List (List Char × CodeDefn) → List (List Char × CodeDefn)
  | [], _, _, acc => acc
  | f :: fs, total, count, acc =>
    if f.suffix ≠ ".py".toList then outerLoop maxFunctions maxChars fs total count acc
    else if f.defns = [] then outerLoop maxFunctions maxChars fs total count acc
    else
      if maxFunctions ≤ (innerLoop maxFunctions maxChars f.relPath f.defns total count acc).2.2
          ∨ maxChars ≤ (innerLoop maxFunctions maxChars f.relPath f.defns total count acc).2.1
        then (innerLoop maxFunctions maxChars f.relPath f.defns total count acc).1
      else outerLoop maxFunctions maxChars fs
        (innerLoop maxFunctions maxChars f.relPath f.defns total count acc).2.1
        (innerLoop maxFunctions maxChars f.relPath f.defns total count acc).2.2
        (innerLoop maxFunctions maxChars f.relPath f.defns total count acc).1

/-- `RepositoryAnalyzer.read_code_intelligently`
(`src/repository/analyzer.py`), reduced to the excerpts it selects: the
pairs (relative path, definition) appended to `content_parts`, in order.
`total_chars` counts exactly `len(definition["code"])` per selected
definition (markdown headers are not counted by the code either). -/
def read_code_intelligently (files : List PyFile) (maxFunctions maxChars : ℕ) :
    List (List Char × CodeDefn) :=
  outerLoop maxFunctions maxChars files 0 0 []

/-- Total character count of the selected code excerpts. -/
def excerptChars (parts : List (List Char × CodeDefn)) : ℕ :=
  (parts.map (fun p => p.2.code.length)).sum

end Analyzer

namespace GeminiClient

/-- JSON values as `json.loads` returns them, with Python numbers (int and
float alike) abstracted as rationals. The nonstandard `NaN`/`Infinity`
literals Python additionally accepts are not modeled; no claim touches
them. -/
inductive Json where
  | null : Json
  | bool (b : Bool) : Json
  | num (q : ℚ) : Json
  | str (s : List Char) : Json
  | arr (elems : List Json) : Json
  | obj (members : List (List Char × Json)) : Json

/-- The whitespace characters `json.loads` skips between tokens. -/
def isJsonWs (c : Char) : Bool :=
  c == ' ' || c == '\t' || c == '\n' || c == '\r'

def skipWs (s : List Char) : List Char := s.dropWhile isJsonWs

def isDigitChar (c : Char) : Bool := '0' ≤ c && c ≤ '9'

def digitsToNat (ds : List Char) : ℕ :=
  ds.foldl (fun n c => n * 10 + (c.toNat - 48)) 0

/-- Hex digit value, for `\uXXXX` escapes. -/
def hexVal (c : Char) : Option ℕ :=
  if '0' ≤ c ∧ c ≤ '9' then some (c.toNat - 48)
  else if 'a' ≤ c ∧ c ≤ 'f' then some (c.toNat - 87)
  else if 'A' ≤ c ∧ c ≤ 'F' then some (c.toNat - 55)
  else none

/-- The two-character escapes of JSON strings. -/
def escChar (e : Char) : Option Char :=
  if e = '\"' then some '\"'
  else if e = '\\' then some '\\'
  else if e = '/' then some '/'
  else if e = 'b' then some (Char.ofNat 8)
  else if e = 'f' then some (Char.ofNat 12)
  else if e = 'n' then some '\n'
  else if e = 'r' then some '\r'
  else if e = 't' then some '\t'
  else none

/-- Parse the remainder of a JSON string after the opening quote: the
decoded characters and the input after the closing quote. Raw control
characters are rejected (json.loads is strict by default); surrogate-pair
recombination of two adjacent `\uXXXX` escapes is not modeled. -/
def parseStringRest : List Char → Option (List Char × List Char)
  | [] => none
  | '\"' :: r => some ([], r)
  | '\\' :: 'u' :: a :: b :: c :: d :: r =>
    match hexVal a, hexVal b, hexVal c, hexVal d with
    | some ha, some hb, some hc, some hd =>
      (parseStringRest r).map
        (fun p => (Char.ofNat (((ha * 16 + hb) * 16 + hc) * 16 + hd) :: p.1, p.2))
    | _, _, _, _ => none
  | '\\' :: e :: r =>
    match escChar e with
    | none => none
    | some ce => (parseStringRest r).map (fun p => (ce :: p.1, p.2))
  | c :: r =>
    if c.toNat < 32 then none
    else (parseStringRest r).map (fun p => (c :: p.1, p.2))

def parseExpDigits (s : List Char) (sgn : ℤ) : Option (ℤ × List Char) :=
  if s.takeWhile isDigitChar = [] then none
  else some (sgn * digitsToNat (s.takeWhile isDigitChar),
    s.drop (s.takeWhile isDigitChar).length)

def parseExp : List Char → Option (ℤ × List Char)
  | '+' :: r => parseExpDigits r 1
  | '-' :: r => parseExpDigits r (-1)
  | s => parseExpDigits s 1

/-- The rational value of a JSON number with integer digits `ids`,
fraction digits `fds`, and exponent `e`. -/
def numVal (neg : Bool) (ids fds : List Char) (e : ℤ) : ℚ :=
  (if neg then -1 else 1) *
    (((digitsToNat ids : ℚ) * 10 ^ fds.length + (digitsToNat fds : ℚ)) / 10 ^ fds.length) *
    (10 : ℚ) ^ e

def finishNum (neg : Bool) (ids fds : List Char) : List Char → Option (Json × List Char)
  | 'e' :: r => (parseExp r).map (fun p => (Json.num (numVal neg ids fds p.1), p.2))
  | 'E' :: r => (parseExp r).map (fun p => (Json.num (numVal neg ids fds p.1), p.2))
  | s => some (Json.num (numVal neg ids fds 0), s)

def parseFrac (neg : Bool) (ids : List Char) : List Char → Option (Json × List Char)
  | '.' :: r =>
    if r.takeWhile isDigitChar = [] then none
    else finishNum neg ids (r.takeWhile isDigitChar) (r.drop (r.takeWhile isDigitChar).length)
  | s => finishNum neg ids [] s

/-- JSON number grammar after an optional minus sign: `0 | [1-9][0-9]*`
(no leading zeros), optional fraction, optional exponent. -/
def parseNumAfterSign (neg : Bool) (s : List Char) : Option (Json × List Char) :=
  if s.takeWhile isDigitChar = [] then none
  else if 2 ≤ (s.takeWhile isDigitChar).length ∧ (s.takeWhile isDigitChar).headD ' ' = '0'
    then none
  else parseFrac neg (s.takeWhile isDigitChar) (s.drop (s.takeWhile isDigitChar).length)

def parseNumber : List Char → Option (Json × List Char)
  | '-' :: r => parseNumAfterSign true r
  | s => parseNumAfterSign false s

mutual

/-- Recursive-descent JSON value, fuel-bounded; `jsonLoads` supplies fuel
ample for any input of its length. -/
def parseValue : ℕ → List Char → Option (Json × List Char)
  | 0, _ => none
  | fuel + 1, s =>
    match skipWs s with
    | 'n' :: 'u' :: 'l' :: 'l' :: r => some (Json.null, r)
    | 't' :: 'r' :: 'u' :: 'e' :: r => some (Json.bool true, r)
    | 'f' :: 'a' :: 'l' :: 's' :: 'e' :: r => some (Json.bool false, r)
    | '\"' :: r => (parseStringRest r).map (fun p => (Json.str p.1, p.2))
    | '[' :: r => parseArrayRest fuel (skipWs r)
    | '{' :: r => parseObjRest fuel (skipWs r)
    | rest => parseNumber rest

def parseArrayRest : ℕ → List Char → Option (Json × List Char)
  | 0, _ => none
  | fuel + 1, s =>
    match s with
    | ']' :: r => some (Json.arr [], r)
    | _ => parseElems fuel s []

def parseElems : ℕ → List Char → List Json → Option (Json × List Char)
  | 0, _, _ => none
  | fuel + 1, s, acc =>
    match parseValue fuel s with
    | none => none
    | some (v, r) =>
      match skipWs r with
      | ',' :: r2 => parseElems fuel r2 (acc ++ [v])
      | ']' :: r2 => some (Json.arr (acc ++ [v]), r2)
      | _ => none

def parseObjRest : ℕ → List Char → Option (Json × List Char)
  | 0, _ => none
  | fuel + 1, s =>
    match s with
    | '}' :: r => some (Json.obj [], r)
    | _ => parseMembers fuel s []

def parseMembers : ℕ → List Char → List (List Char × Json) → Option (Json × List Char)
  | 0, _, _ => none
  | fuel + 1, s, acc =>
    match skipWs s with
    | '\"' :: r =>
      match parseStringRest r with
      | none => none
      | some (key, r2) =>
        match skipWs r2 with
        | ':' :: r3 =>
          match parseValue fuel r3 with
          | none => none
          | some (v, r4) =>
            match skipWs r4 with
            | ',' :: r5 => parseMembers fuel r5 (acc ++ [(key, v)])
            | '}' :: r5 => some (Json.obj (acc ++ [(key, v)]), r5)
            | _ => none
        | _ => none
    | _ => none

end

/-- `json.loads`: a whole JSON document, trailing whitespace only. -/
def jsonLoads (text : List Char) : Option Json :=
  match parseValue (3 * text.length + 3) text with
  | none => none
  | some (v, rest) => if skipWs rest = [] then some v else none

/-- Split at the first occurrence of `marker`: the text before it and the
text after it. -/
def splitOnMarker (marker : List Char) : List Char → Option (List Char × List Char)
  | [] => if marker.isPrefixOf [] then some ([], []) else none
  | c :: rest =>
    if marker.isPrefixOf (c :: rest) then some ([], (c :: rest).drop marker.length)
    else (splitOnMarker marker rest).map (fun p => (c :: p.1, p.2))

/-- The fenced-block extraction of `_parse_analysis_response`
(gemini_client.py:153), the lazy DOTALL search: the text between the
first occurrence of the opening fence and the first closing fence after
it (none when either fence is missing — a close after any later open is
also after the first open, so this is the regex's verdict too). -/
def extractFenced (text : List Char) : Option (List Char) :=
  match splitOnMarker ("```json\n".toList) text with
  | none => none
  | some p =>
    match splitOnMarker ("\n```".toList) p.2 with
    | none => none
    | some q => some q.1

/-- The dict the except-branch of `_parse_analysis_response` returns. -/
def defaultAnalysisResult : Json :=
  Json.obj [("is_implemented".toList, Json.bool false),
    ("confidence".toList, Json.num 0),
    ("reasoning".toList, Json.str ("Parse failed".toList)),
    ("related_files".toList, Json.arr []),
    ("missing_components".toList, Json.arr [])]

/-- `GeminiClient._parse_analysis_response` (src/ai/gemini_client.py
143-171): try `json.loads` on the fenced block if one is found, then on
the whole text; only a `JSONDecodeError` (here: `none`) falls through, and
only when both loads fail is the default dict returned. -/
def parse_analysis_response (text : List Char) : Json :=
  match extractFenced text with
  | some inner =>
    match jsonLoads inner with
    | some v => v
    | none =>
      match jsonLoads text with
      | some v => v
      | none => defaultAnalysisResult
  | none =>
    match jsonLoads text with
    | some v => v
    | none => defaultAnalysisResult

/-- Field lookup in a parsed JSON object, as the caller's
`result["is_implemented"]` does. -/
def objLookup (key : List Char) : Json → Option Json
  | Json.obj ms => (ms.find? (fun m => m.1 == key)).map (fun m => m.2)
  | _ => none

end GeminiClient

namespace RateLimiter

/-- Counting monotonicity: a pointwise-stronger filter selects at most as
many elements. -/
lemma length_filter_le_of_imp {A : List ℚ} {P Q : ℚ → Bool}
    (h : ∀ x ∈ A, P x = true → Q x = true) :
    (A.filter P).length ≤ (A.filter Q).length := by
  induction A with
  | nil => simp
  | cons a l ih =>
    have hl := ih (fun x hx => h x (List.mem_cons_of_mem _ hx))
    by_cases hP : P a = true
    · rw [List.filter_cons_of_pos hP, List.filter_cons_of_pos (h a (List.mem_cons_self a l) hP)]
      simpa using hl
    · rw [List.filter_cons_of_neg (by simpa using hP)]
      by_cases hQ : Q a = true
      · rw [List.filter_cons_of_pos hQ]
        exact hl.trans (by simp)
      · rw [List.filter_cons_of_neg (by simpa using hQ)]
        exact hl

/-- Strict counting: if moreover some element `o` of the duplicate-free list
satisfies `Q` but not `P`, the `P`-count is strictly below the `Q`-count. -/
lemma length_filter_lt_of_mem {A : List ℚ} {P Q : ℚ → Bool}
    (h : ∀ x ∈ A, P x = true → Q x = true) {o : ℚ} (hoA : o ∈ A)
    (hQo : Q o = true) (hPo : P o = false) (hnd : A.Nodup) :
    (A.filter P).length < (A.filter Q).length := by
  induction A with
  | nil => simp at hoA
  | cons a l ih =>
    have hl : ∀ x ∈ l, P x = true → Q x = true :=
      fun x hx => h x (List.mem_cons_of_mem _ hx)
    rcases List.mem_cons.mp hoA with rfl | hol
    · rw [List.filter_cons_of_neg (by simp [hPo]), List.filter_cons_of_pos hQo]
      have := length_filter_le_of_imp hl
      simp only [List.length_cons]
      omega
    · have hnd' := (List.nodup_cons.mp hnd).2
      have ihl := ih hl hol hnd'
      by_cases hP : P a = true
      · rw [List.filter_cons_of_pos hP, List.filter_cons_of_pos (h a (List.mem_cons_self a l) hP)]
        simpa using ihl
      · rw [List.filter_cons_of_neg (by simpa using hP)]
        by_cases hQ : Q a = true
        · rw [List.filter_cons_of_pos hQ]
          exact ihl.trans (by simp)
        · rw [List.filter_cons_of_neg (by simpa using hQ)]
          exact ihl

/-- On a strictly sorted list, popping expired entries from the front is the
same as filtering for unexpired entries. -/
lemma dropWhile_sorted_eq_filter {c : ℚ} :
    ∀ {L : List ℚ}, L.Pairwise (· < ·) →
      L.dropWhile (fun s => decide (s < c)) = L.filter (fun s => decide (c ≤ s))
  | [], _ => by simp
  | a :: l, hp => by
    have hl := (List.pairwise_cons.mp hp).2
    have ha' := (List.pairwise_cons.mp hp).1
    by_cases ha : a < c
    · rw [List.dropWhile_cons_of_pos (by simpa using ha),
        List.filter_cons_of_neg (by simpa using not_le.mpr ha)]
      exact dropWhile_sorted_eq_filter hl
    · rw [List.dropWhile_cons_of_neg (by simpa using ha),
        List.filter_cons_of_pos (by simpa using not_lt.mp ha)]
      rw [List.filter_eq_self.mpr]
      intro x hx
      have : a < x := ha' x hx
      simp only [decide_eq_true_eq]
      linarith [not_lt.mp ha]

/-- Filtering with a larger lower threshold absorbs a previous smaller one. -/
lemma filter_filter_ge {A : List ℚ} {c₁ c₂ : ℚ} (h : c₁ ≤ c₂) :
    (A.filter (fun s => decide (c₁ ≤ s))).filter (fun s => decide (c₂ ≤ s))
      = A.filter (fun s => decide (c₂ ≤ s)) := by
  rw [List.filter_filter]
  apply List.filter_congr
  intro x _
  by_cases hx : c₂ ≤ x
  · simp [hx, le_trans h hx]
  · simp [hx]

/-- Appending an admission at time `t` preserves the window bound, provided
either the pruned deque was not yet full, or the admission happened exactly at
the expiry boundary (`t - W` is an admitted time). -/
lemma safe_append {m : ℕ} {W : ℚ} {A : List ℚ} {b t : ℚ}
    (hsorted : A.Pairwise (· < ·)) (hle : ∀ a ∈ A, a ≤ b)
    (hsafe : ∀ τ, windowCount A W τ ≤ m) (hbt : b < t)
    (hcase : (A.filter (fun s => decide (t - W ≤ s))).length < m ∨ t - W ∈ A) :
    ∀ τ, windowCount (A ++ [t]) W τ ≤ m := by
  intro τ
  have hnd : A.Nodup := hsorted.imp (fun hlt => ne_of_lt hlt)
  unfold windowCount at *
  rw [List.filter_append]
  by_cases hin : (τ - W < t ∧ t ≤ τ)
  · have hone : (List.filter (fun s => decide (τ - W < s) && decide (s ≤ τ)) [t]).length = 1 := by
      simp [hin.1, hin.2]
    rw [List.length_append, hone]
    have himp : ∀ x ∈ A, (decide (τ - W < x) && decide (x ≤ τ)) = true →
        decide (t - W ≤ x) = true := by
      intro x _ hx
      simp only [Bool.and_eq_true, decide_eq_true_eq] at hx
      simp only [decide_eq_true_eq]
      have : t - W ≤ τ - W := by linarith [hin.2]
      linarith [hx.1]
    rcases hcase with hlt | hmem
    · have := length_filter_le_of_imp himp
      omega
    · have himp' : ∀ x ∈ A, (decide (τ - W < x) && decide (x ≤ τ)) = true →
          (decide (b - W < x) && decide (x ≤ b)) = true := by
        intro x hxA hx
        simp only [Bool.and_eq_true, decide_eq_true_eq] at hx ⊢
        constructor
        · have h1 : t - W ≤ τ - W := by linarith [hin.2]
          have h2 : b - W < t - W := by linarith
          linarith [hx.1]
        · exact hle x hxA
      have hQo : (decide (b - W < t - W) && decide (t - W ≤ b)) = true := by
        simp only [Bool.and_eq_true, decide_eq_true_eq]
        exact ⟨by linarith, hle _ hmem⟩
      have hPo : (decide (τ - W < t - W) && decide (t - W ≤ τ)) = false := by
        have : ¬ (τ - W < t - W) := by linarith [hin.2]
        simp [this]
      have := length_filter_lt_of_mem himp' hmem hQo hPo hnd
      have hsb := hsafe b
      unfold windowCount at hsb
      omega
  · have hzero : (List.filter (fun s => decide (τ - W < s) && decide (s ≤ τ)) [t]).length = 0 := by
      rcases not_and_or.mp hin with h1 | h2
      · simp [h1]
      · simp [h2]
    rw [List.length_append, hzero]
    simpa using hsafe τ

/-- An admitted `acquire` call at a strictly later time preserves the run
invariant. -/
lemma inv_step {m : ℕ} {W : ℚ} {q A : List ℚ} {b t : ℚ} {q' : List ℚ} (hW : 0 ≤ W)
    (h : Inv m W q A b) (hbt : b < t)
    (hadm : acquire m W q t = .granted q') : Inv m W q' (A ++ [t]) t := by
  have hpr : pruneWindow W q t = A.filter (fun s => decide (t - W ≤ s)) := by
    rw [h.rep, pruneWindow, dropWhile_sorted_eq_filter (h.sorted.filter _),
      filter_filter_ge (by linarith)]
  set P := A.filter (fun s => decide (t - W ≤ s)) with hP
  have hsorted' : (A ++ [t]).Pairwise (· < ·) := by
    rw [List.pairwise_append]
    refine ⟨h.sorted, by simp, ?_⟩
    intro a ha x hx
    rw [List.mem_singleton] at hx
    subst hx
    exact lt_of_le_of_lt (h.le_b a ha) hbt
  have hle' : ∀ a ∈ A ++ [t], a ≤ t := by
    intro a ha
    rcases List.mem_append.mp ha with haA | hat
    · exact le_of_lt (lt_of_le_of_lt (h.le_b a haA) hbt)
    · rw [List.mem_singleton] at hat
      exact le_of_eq hat
  have hrep' : P ++ [t] = (A ++ [t]).filter (fun s => decide (t - W ≤ s)) := by
    rw [List.filter_append]
    congr 1
    simp [hW]
  -- extract the admitted deque and the reason for admission
  unfold acquire at hadm
  rw [hpr] at hadm
  by_cases hm : m ≤ P.length
  · rw [if_pos hm] at hadm
    cases hPeq : P with
    | nil =>
      rw [hPeq, acquireAtLimit] at hadm
      exact absurd hadm (by simp)
    | cons oldest rest =>
      rw [hPeq, acquireAtLimit] at hadm
      by_cases hsleep : 0 < oldest + W - t
      · rw [if_pos hsleep] at hadm
        exact absurd hadm (by simp)
      · rw [if_neg hsleep] at hadm
        have hq' : q' = P ++ [t] := by
          rw [hPeq]
          exact (AcquireResult.granted.inj hadm).symm
        have hoP : oldest ∈ P := by rw [hPeq]; exact List.mem_cons_self _ _
        have holdge : t - W ≤ oldest := by
          have := (List.mem_filter.mp (hP ▸ hoP)).2
          simpa using this
        have hole : oldest = t - W := by linarith [not_lt.mp hsleep]
        have hoA : t - W ∈ A := hole ▸ (List.mem_filter.mp (hP ▸ hoP)).1
        exact ⟨hsorted', hle', by rw [hq', hrep'],
          safe_append h.sorted h.le_b h.safe hbt (Or.inr hoA)⟩
  · rw [if_neg hm] at hadm
    have hq' : q' = P ++ [t] := (AcquireResult.granted.inj hadm).symm
    exact ⟨hsorted', hle', by rw [hq', hrep'],
      safe_append h.sorted h.le_b h.safe hbt (Or.inl (not_le.mp hm))⟩

/-- The window bound holds at the end of any strictly increasing run. -/
lemma runCalls_safe {m : ℕ} {W : ℚ} (hW : 0 ≤ W) :
    ∀ (ts q A : List ℚ) (b : ℚ), Inv m W q A b → List.Chain' (· < ·) (b :: ts) →
      ∀ τ, windowCount (runCalls m W q A ts) W τ ≤ m
  | [], q, A, b, hInv, _, τ => by
    rw [runCalls]
    exact hInv.safe τ
  | t :: ts, q, A, b, hInv, hch, τ => by
    rw [runCalls]
    cases hadm : acquire m W q t with
    | stuck => exact hInv.safe τ
    | granted q' =>
      have hbt : b < t := (List.chain'_cons.mp hch).1
      have hInv' := inv_step hW hInv hbt hadm
      have hch' : List.Chain' (· < ·) (t :: ts) := (List.chain'_cons.mp hch).2
      exact runCalls_safe hW ts q' (A ++ [t]) t hInv' hch' τ

end RateLimiter

/-- C1 (amended): for every `maxRequests`, every nonnegative `windowSeconds`,
and every strictly increasing sequence of wall-clock times at which
`RateLimiter.acquire` is called, the number of admitted calls whose admission
timestamps lie in any trailing half-open window `(τ - W, τ]` never exceeds
`maxRequests`.  (As stated, with arbitrary interleavings of elapsed time, the
claim is false: see the counterexample, where time does not advance between
calls and the boundary fall-through `sleep_time == 0` over-admits.) -/
theorem rate_limiter_sliding_window_bound (m : ℕ) (W : ℚ) (ts : List ℚ)
    (hW : 0 ≤ W) (hts : List.Chain' (· < ·) ts) (τ : ℚ) :
    RateLimiter.windowCount (RateLimiter.admittedCalls m W ts) W τ ≤ m := by
  cases ts with
  | nil =>
    rw [RateLimiter.admittedCalls, RateLimiter.runCalls]
    simp [RateLimiter.windowCount]
  | cons t ts' =>
    have hInv : RateLimiter.Inv m W [] [] (t - 1) :=
      ⟨by simp, by simp, by simp, by simp [RateLimiter.windowCount]⟩
    exact RateLimiter.runCalls_safe hW (t :: ts') [] [] (t - 1) hInv
      (List.chain'_cons.mpr ⟨by linarith, hts⟩) τ

/-- C1 witness: concrete instance of the amended window bound at
`maxRequests = 1`, `windowSeconds = 10`, calls at times `0` and `5`,
window ending at `τ = 7`. -/
theorem rate_limiter_sliding_window_bound_witness :
    (0 : ℚ) ≤ 10 ∧ List.Chain' (· < · : ℚ → ℚ → Prop) [0, 5] ∧
      RateLimiter.windowCount (RateLimiter.admittedCalls 1 10 [0, 5]) 10 7 ≤ 1 :=
  ⟨by norm_num, by norm_num [List.chain'_cons],
    rate_limiter_sliding_window_bound 1 10 [0, 5] (by norm_num)
      (by norm_num [List.chain'_cons]) 7⟩

/-- C1 counterexample: with `maxRequests = 2`, `windowSeconds = 10` and
acquire calls at times `0, 5, 10, 10` (time need not advance between calls),
all four calls are admitted, and the trailing window `(0, 10]` — hence also
the closed window `[0, 10]` — holds three admitted timestamps, exceeding
`maxRequests = 2`.  The fourth call is admitted while the window already
holds three unexpired entries (`0, 5, 10` all satisfy `ts ≥ now - W`). -/
theorem rate_limiter_window_bound_counterexample :
    RateLimiter.admittedCalls 2 10 [0, 5, 10, 10] = [0, 5, 10, 10] ∧
      RateLimiter.windowCount (RateLimiter.admittedCalls 2 10 [0, 5, 10, 10]) 10 10 = 3 ∧
      ¬ (3 ≤ 2) := by
  refine ⟨?_, ?_, by omega⟩ <;>
    norm_num [RateLimiter.admittedCalls, RateLimiter.runCalls, RateLimiter.acquire,
      RateLimiter.pruneWindow, RateLimiter.acquireAtLimit, RateLimiter.windowCount, List.filter]

/-- C10: the code deadlocks instead of eventually admitting.  With
`maxRequests = 1`, `windowSeconds = 10`, a first call admitted at time `0`
and a second call at time `1`, the second call computes `sleep_time = 9 > 0`,
sleeps, and then recursively re-invokes `acquire`, which awaits the
non-reentrant `asyncio.Lock` already held by the same task — so the call
never returns and no later caller is admitted either. -/
theorem rate_limiter_acquire_never_returns :
    RateLimiter.acquire 1 10 [0] 1 = .stuck ∧
      RateLimiter.admittedCalls 1 10 [0, 1] = [0] := by
  constructor <;>
    norm_num [RateLimiter.admittedCalls, RateLimiter.runCalls, RateLimiter.acquire,
      RateLimiter.pruneWindow, RateLimiter.acquireAtLimit]

namespace Retry

/-- Success path of the retry loop, started at any attempt index. -/
lemma retryGo_succeeds {E A : Type} (maxRetries : ℕ) (base : ℚ) (op : ℕ → Except E A)
    (a : A) : ∀ (k j : ℕ) (s : ℚ), j + k < maxRetries →
    (∀ i, i < k → ∃ e, op (j + i) = Except.error e) → op (j + k) = Except.ok a →
    retryGo maxRetries base op j s
      = (Except.ok (some a), s + base * ∑ i ∈ Finset.range k, 2 ^ (j + i))
  | 0, j, s, hlt, _, hok => by
    rw [retryGo, if_pos (by omega)]
    rw [Nat.add_zero] at hok
    rw [hok]
    simp
  | k + 1, j, s, hlt, hfail, hok => by
    obtain ⟨e, he⟩ := hfail 0 (Nat.succ_pos k)
    rw [Nat.add_zero] at he
    rw [retryGo, if_pos (by omega), he]
    dsimp only
    rw [if_neg (by omega)]
    have ih := retryGo_succeeds maxRetries base op a k (j + 1)
      (s + base * 2 ^ j) (by omega)
      (fun i hi => by
        obtain ⟨e', he'⟩ := hfail (i + 1) (by omega)
        exact ⟨e', by rw [← he']; ring_nf⟩)
      (by rw [← hok]; ring_nf)
    rw [ih, Finset.sum_range_succ']
    congr 1
    have : ∀ i, (2 : ℚ) ^ (j + 1 + i) = 2 ^ (j + (i + 1)) := fun i => by ring_nf
    rw [Finset.sum_congr rfl (fun i _ => this i)]
    ring

/-- All-failures path of the retry loop, started at any attempt index. -/
lemma retryGo_fails {E A : Type} (maxRetries : ℕ) (base : ℚ) (op : ℕ → Except E A)
    (f : ℕ → E) : ∀ (r j : ℕ) (s : ℚ), j + r = maxRetries → 0 < r →
    (∀ i, j ≤ i → i < maxRetries → op i = Except.error (f i)) →
    (retryGo maxRetries base op j s).1 = Except.error (f (maxRetries - 1))
  | 1, j, s, hjr, _, hfail => by
    rw [retryGo, if_pos (by omega), hfail j le_rfl (by omega)]
    dsimp only
    rw [if_pos (by omega)]
    have hj : maxRetries - 1 = j := by omega
    rw [hj]
  | r + 2, j, s, hjr, _, hfail => by
    rw [retryGo, if_pos (by omega), hfail j le_rfl (by omega)]
    dsimp only
    rw [if_neg (by omega)]
    exact retryGo_fails maxRetries base op f (r + 1) (j + 1)
      (s + base * 2 ^ j) (by omega) (by omega)
      (fun i hji hi => hfail i (by omega) hi)

end Retry

/-- C2: for every operation wrapped by `retry_with_backoff(max_retries,
base_delay)`: (1) if the operation fails exactly `k` times then succeeds
with value `a`, where `k < max_retries`, the wrapped call returns the
success value and the total slept duration is
`base_delay * (2^0 + 2^1 + ... + 2^(k-1))`; (2) if the operation fails
on all `max_retries ≥ 1` attempts, the wrapped call raises the last
underlying error unchanged. -/
theorem retry_with_backoff_spec {E A : Type} (maxRetries : ℕ) (baseDelay : ℚ) :
    (∀ (op : ℕ → Except E A) (k : ℕ) (a : A), k < maxRetries →
        (∀ i, i < k → ∃ e, op i = Except.error e) → op k = Except.ok a →
        Retry.retryWithBackoff maxRetries baseDelay op
          = (Except.ok (some a), baseDelay * ∑ i ∈ Finset.range k, (2 : ℚ) ^ i)) ∧
    (∀ (op : ℕ → Except E A) (f : ℕ → E), 1 ≤ maxRetries →
        (∀ i, i < maxRetries → op i = Except.error (f i)) →
        (Retry.retryWithBackoff maxRetries baseDelay op).1
          = Except.error (f (maxRetries - 1))) := by
  constructor
  · intro op k a hk hfail hok
    have h := Retry.retryGo_succeeds maxRetries baseDelay op a k 0 0 (by omega)
      (fun i hi => by simpa using hfail i hi) (by simpa using hok)
    rw [Retry.retryWithBackoff, h]
    norm_num
  · intro op f hmax hfail
    exact Retry.retryGo_fails maxRetries baseDelay op f maxRetries 0 0 (by omega)
      (by omega) (fun i _ hi => hfail i hi)

/-- C2 witness: `max_retries = 3`, `base_delay = 1`, an operation failing
twice then succeeding with `42` sleeps `2^0 + 2^1 = 3` seconds and returns
`42`; an operation failing on all three attempts raises the error of the
final attempt. -/
theorem retry_with_backoff_spec_witness :
    Retry.retryWithBackoff 3 (1 : ℚ)
        (fun i => if i < 2 then Except.error (10 + i) else Except.ok (42 : ℕ))
      = (Except.ok (some 42), 3) ∧
    (Retry.retryWithBackoff 3 (1 : ℚ)
        (fun i => (Except.error (10 + i) : Except ℕ ℕ))).1 = Except.error 12 := by
  constructor
  · have h := (retry_with_backoff_spec (E := ℕ) (A := ℕ) 3 1).1
      (fun i => if i < 2 then Except.error (10 + i) else Except.ok 42) 2 42 (by omega)
      (fun i hi => ⟨10 + i, by simp [hi]⟩) (by norm_num)
    rw [h]
    norm_num [Finset.sum_range_succ]
  · have h := (retry_with_backoff_spec (E := ℕ) (A := ℕ) 3 1).2
      (fun i => Except.error (10 + i)) (fun i => 10 + i) (by omega)
      (fun i _ => rfl)
    simpa using h

namespace Workflow

/-- A string with a non-empty left part is non-empty. -/
lemma append_ne_empty_left (s t : String) (hs : s ≠ "") : s ++ t ≠ "" := by
  intro h
  apply hs
  cases s with
  | mk sd =>
    cases t with
    | mk td =>
      simp only [String.ext_iff] at h ⊢
      have hd : sd ++ td = [] := h
      exact (List.append_eq_nil.mp hd).1

end Workflow

/-- C3 counterexample: when `CloneRepo` fails, the graph still executes
`AnalyzeImplementation` — the edge `clone_repo → analyze_implementation` is
unconditional — contradicting the claim that none of the later states run.
Concrete run: clone fails with "network down"; the executed-node trace
contains `analyze_implementation`. -/
theorem workflow_clone_failure_counterexample :
    Workflow.WNode.analyze_implementation ∈
      (Workflow.runWorkflow
        ⟨Except.error "network down", Except.ok (false, 0), Except.ok [], Except.ok []⟩
        (Workflow.initialState "add login" "https://host/repo")).2 := by
  decide

/-- C3 (amended): in every execution in which `CloneRepo` fails, a terminal
error is recorded and neither `BreakdownTask` nor `CreateIssues` executes
(zero issues are created); however `AnalyzeImplementation` does still
execute before the conditional edge routes the machine to `Done`. -/
theorem workflow_clone_failure_skips_decomposition
    (env : Workflow.Env) (msg desc url : String)
    (hclone : env.cloneResult = Except.error msg) :
    Workflow.WNode.breakdown_task ∉ (Workflow.runWorkflow env (Workflow.initialState desc url)).2 ∧
    Workflow.WNode.create_issues ∉ (Workflow.runWorkflow env (Workflow.initialState desc url)).2 ∧
    Workflow.WNode.analyze_implementation ∈
      (Workflow.runWorkflow env (Workflow.initialState desc url)).2 ∧
    (Workflow.runWorkflow env (Workflow.initialState desc url)).1.error ≠ "" ∧
    (Workflow.runWorkflow env (Workflow.initialState desc url)).1.created_issues = [] := by
  have h1 : Workflow.cloneRepoNode env (Workflow.initialState desc url)
      = { Workflow.initialState desc url with error := "Clone failed: " ++ msg } := by
    rw [Workflow.cloneRepoNode, hclone]
  cases ha : env.analysisResult with
  | ok v =>
    obtain ⟨impl, conf⟩ := v
    have h2 : Workflow.analyzeImplementationNode env
          (Workflow.cloneRepoNode env (Workflow.initialState desc url))
        = { Workflow.initialState desc url with
            error := "Clone failed: " ++ msg,
            is_implemented := impl,
            confidence := conf } := by
      rw [h1, Workflow.analyzeImplementationNode, ha]
    have herr : ("Clone failed: " ++ msg) ≠ "" :=
      Workflow.append_ne_empty_left _ _ (by decide)
    have hskip : Workflow.shouldCreateTasks
        { Workflow.initialState desc url with
          error := "Clone failed: " ++ msg,
          is_implemented := impl,
          confidence := conf } = "skip" := by
      rw [Workflow.shouldCreateTasks]
      dsimp only
      rw [if_pos herr]
    simp only [Workflow.runWorkflow, h2, hskip]
    rw [if_neg (by decide)]
    refine ⟨?_, ?_, ?_, herr, rfl⟩
    · show Workflow.WNode.breakdown_task ∉
        [Workflow.WNode.clone_repo, Workflow.WNode.analyze_implementation]
      decide
    · show Workflow.WNode.create_issues ∉
        [Workflow.WNode.clone_repo, Workflow.WNode.analyze_implementation]
      decide
    · show Workflow.WNode.analyze_implementation ∈
        [Workflow.WNode.clone_repo, Workflow.WNode.analyze_implementation]
      decide
  | error e =>
    have h2 : Workflow.analyzeImplementationNode env
          (Workflow.cloneRepoNode env (Workflow.initialState desc url))
        = { Workflow.initialState desc url with
            error := "Analysis failed: " ++ e } := by
      rw [h1, Workflow.analyzeImplementationNode, ha]
    have herr : ("Analysis failed: " ++ e) ≠ "" :=
      Workflow.append_ne_empty_left _ _ (by decide)
    have hskip : Workflow.shouldCreateTasks
        { Workflow.initialState desc url with
          error := "Analysis failed: " ++ e } = "skip" := by
      rw [Workflow.shouldCreateTasks]
      dsimp only
      rw [if_pos herr]
    simp only [Workflow.runWorkflow, h2, hskip]
    rw [if_neg (by decide)]
    refine ⟨?_, ?_, ?_, herr, rfl⟩
    · show Workflow.WNode.breakdown_task ∉
        [Workflow.WNode.clone_repo, Workflow.WNode.analyze_implementation]
      decide
    · show Workflow.WNode.create_issues ∉
        [Workflow.WNode.clone_repo, Workflow.WNode.analyze_implementation]
      decide
    · show Workflow.WNode.analyze_implementation ∈
        [Workflow.WNode.clone_repo, Workflow.WNode.analyze_implementation]
      decide

/-- C3 witness: concrete clone failure; decomposition and issue creation do
not execute, an error is recorded, zero issues are created. -/
theorem workflow_clone_failure_skips_decomposition_witness :
    (⟨Except.error "boom", Except.ok (false, 0), Except.ok [], Except.ok []⟩ :
        Workflow.Env).cloneResult = Except.error "boom" ∧
    Workflow.WNode.breakdown_task ∉
      (Workflow.runWorkflow
        ⟨Except.error "boom", Except.ok (false, 0), Except.ok [], Except.ok []⟩
        (Workflow.initialState "t" "u")).2 :=
  ⟨rfl, (workflow_clone_failure_skips_decomposition
    ⟨Except.error "boom", Except.ok (false, 0), Except.ok [], Except.ok []⟩
    "boom" "t" "u" rfl).1⟩

/-- C4: with no prior terminal error, a verdict `implemented = true` with
confidence strictly above `0.7` routes the machine past `BreakdownTask` and
`CreateIssues` (zero tracker items are created), while `implemented = true`
with confidence `0.5` proceeds to decomposition and issue creation. -/
theorem workflow_confidence_gate :
    (∀ (env : Workflow.Env) (desc url p : String) (conf : ℚ),
        env.cloneResult = Except.ok p → env.analysisResult = Except.ok (true, conf) →
        7/10 < conf →
        (Workflow.runWorkflow env (Workflow.initialState desc url)).1.created_issues = [] ∧
        Workflow.WNode.breakdown_task ∉
          (Workflow.runWorkflow env (Workflow.initialState desc url)).2 ∧
        Workflow.WNode.create_issues ∉
          (Workflow.runWorkflow env (Workflow.initialState desc url)).2) ∧
    (∀ (env : Workflow.Env) (desc url p : String),
        env.cloneResult = Except.ok p → env.analysisResult = Except.ok (true, 1/2) →
        Workflow.WNode.breakdown_task ∈
          (Workflow.runWorkflow env (Workflow.initialState desc url)).2 ∧
        Workflow.WNode.create_issues ∈
          (Workflow.runWorkflow env (Workflow.initialState desc url)).2) := by
  constructor
  · intro env desc url p conf hclone hana hconf
    have h2 : Workflow.analyzeImplementationNode env
          (Workflow.cloneRepoNode env (Workflow.initialState desc url))
        = { Workflow.initialState desc url with
            repo_path := some p,
            is_implemented := true,
            confidence := conf } := by
      rw [Workflow.cloneRepoNode, hclone, Workflow.analyzeImplementationNode, hana]
    have hskip : Workflow.shouldCreateTasks
        { Workflow.initialState desc url with
          repo_path := some p,
          is_implemented := true,
          confidence := conf } = "skip" := by
      rw [Workflow.shouldCreateTasks]
      dsimp only
      rw [if_neg (by simp [Workflow.initialState]), if_pos ⟨rfl, hconf⟩]
    simp only [Workflow.runWorkflow, h2, hskip]
    rw [if_neg (by decide)]
    refine ⟨rfl, ?_, ?_⟩
    · show Workflow.WNode.breakdown_task ∉
        [Workflow.WNode.clone_repo, Workflow.WNode.analyze_implementation]
      decide
    · show Workflow.WNode.create_issues ∉
        [Workflow.WNode.clone_repo, Workflow.WNode.analyze_implementation]
      decide
  · intro env desc url p hclone hana
    have h2 : Workflow.analyzeImplementationNode env
          (Workflow.cloneRepoNode env (Workflow.initialState desc url))
        = { Workflow.initialState desc url with
            repo_path := some p,
            is_implemented := true,
            confidence := 1/2 } := by
      rw [Workflow.cloneRepoNode, hclone, Workflow.analyzeImplementationNode, hana]
    have hcreate : Workflow.shouldCreateTasks
        { Workflow.initialState desc url with
          repo_path := some p,
          is_implemented := true,
          confidence := 1/2 } = "create" := by
      rw [Workflow.shouldCreateTasks]
      dsimp only
      rw [if_neg (by simp [Workflow.initialState]), if_neg (by norm_num)]
    simp only [Workflow.runWorkflow, h2, hcreate]
    rw [if_pos trivial]
    constructor
    · show Workflow.WNode.breakdown_task ∈
        [Workflow.WNode.clone_repo, Workflow.WNode.analyze_implementation,
         Workflow.WNode.breakdown_task, Workflow.WNode.create_issues]
      decide
    · show Workflow.WNode.create_issues ∈
        [Workflow.WNode.clone_repo, Workflow.WNode.analyze_implementation,
         Workflow.WNode.breakdown_task, Workflow.WNode.create_issues]
      decide

/-- C4 witness: concrete runs at confidence `0.85` (zero items created,
decomposition skipped) and at confidence `0.5` (decomposition executed). -/
theorem workflow_confidence_gate_witness :
    ((7 : ℚ)/10 < 85/100 ∧
      (Workflow.runWorkflow
        ⟨Except.ok "/tmp/r", Except.ok (true, 85/100), Except.ok [], Except.ok []⟩
        (Workflow.initialState "t" "u")).1.created_issues = []) ∧
    Workflow.WNode.breakdown_task ∈
      (Workflow.runWorkflow
        ⟨Except.ok "/tmp/r", Except.ok (true, 1/2), Except.ok [], Except.ok []⟩
        (Workflow.initialState "t" "u")).2 :=
  ⟨⟨by norm_num,
    ((workflow_confidence_gate.1)
      ⟨Except.ok "/tmp/r", Except.ok (true, 85/100), Except.ok [], Except.ok []⟩
      "t" "u" "/tmp/r" (85/100) rfl rfl (by norm_num)).1⟩,
   ((workflow_confidence_gate.2)
      ⟨Except.ok "/tmp/r", Except.ok (true, 1/2), Except.ok [], Except.ok []⟩
      "t" "u" "/tmp/r" rfl rfl).1⟩

namespace TitleValidator

lemma validTypes_not_pre :
    ∀ a ∈ validTypes, ∀ b ∈ validTypes, a ≠ b → a.isPrefixOf b = false := by decide

lemma validTypes_len_pos : ∀ a ∈ validTypes, 1 ≤ a.length := by decide

/-- Two lists neither of which is a prefix of the other stay non-prefixes
after extending the second. -/
lemma isPrefixOf_false_append {a ty : List Char} (r : List Char)
    (h1 : a.isPrefixOf ty = false) (h2 : ty.isPrefixOf a = false) :
    a.isPrefixOf (ty ++ r) = false := by
  by_contra hcon
  rw [Bool.not_eq_false] at hcon
  have hp : a <+: ty ++ r := List.isPrefixOf_iff_prefix.mp hcon
  by_cases hlen : a.length ≤ ty.length
  · have hpre : a <+: ty :=
      List.prefix_of_prefix_length_le hp (List.prefix_append ty r) hlen
    rw [List.isPrefixOf_iff_prefix.mpr hpre] at h1
    cases h1
  · have hpre : ty <+: a :=
      List.prefix_of_prefix_length_le (List.prefix_append ty r) hp (by omega)
    rw [List.isPrefixOf_iff_prefix.mpr hpre] at h2
    cases h2

lemma matchTypeAux_sound : ∀ {tys : List (List Char)} {t ty r : List Char},
    matchTypeAux tys t = some (ty, r) → ty ∈ tys ∧ t = ty ++ r
  | [], t, ty, r => by simp [matchTypeAux]
  | a :: tys, t, ty, r => by
    rw [matchTypeAux]
    by_cases hpre : a.isPrefixOf t = true
    · rw [if_pos hpre]
      intro h
      rw [Option.some.injEq, Prod.mk.injEq] at h
      obtain ⟨rfl, rfl⟩ := h
      refine ⟨List.mem_cons_self _ _, ?_⟩
      exact (List.prefix_iff_eq_append.mp (List.isPrefixOf_iff_prefix.mp hpre)).symm
    · rw [if_neg hpre]
      intro h
      obtain ⟨hmem, ht⟩ := matchTypeAux_sound h
      exact ⟨List.mem_cons_of_mem _ hmem, ht⟩

lemma matchTypeAux_append : ∀ {tys : List (List Char)} {ty : List Char} (r : List Char),
    ty ∈ tys →
    (∀ a ∈ tys, a ≠ ty → a.isPrefixOf ty = false) →
    (∀ a ∈ tys, a ≠ ty → ty.isPrefixOf a = false) →
    matchTypeAux tys (ty ++ r) = some (ty, r)
  | [], ty, r, hmem, _, _ => absurd hmem (List.not_mem_nil ty)
  | a :: tys, ty, r, hmem, hnp1, hnp2 => by
    by_cases hat : a = ty
    · subst hat
      rw [matchTypeAux,
        if_pos (List.isPrefixOf_iff_prefix.mpr (List.prefix_append a r)), List.drop_left]
    · have hfalse : a.isPrefixOf (ty ++ r) = false :=
        isPrefixOf_false_append r (hnp1 a (List.mem_cons_self a tys) hat)
          (hnp2 a (List.mem_cons_self a tys) hat)
      rw [matchTypeAux, if_neg (by rw [hfalse]; simp)]
      have hmem' : ty ∈ tys := by
        rcases List.mem_cons.mp hmem with h | h
        · exact absurd h.symm hat
        · exact h
      exact matchTypeAux_append r hmem' (fun b hb => hnp1 b (List.mem_cons_of_mem _ hb))
        (fun b hb => hnp2 b (List.mem_cons_of_mem _ hb))

lemma matchType_sound {t ty r : List Char} (h : matchType t = some (ty, r)) :
    ty ∈ validTypes ∧ t = ty ++ r :=
  matchTypeAux_sound h

lemma matchType_append {ty : List Char} (r : List Char) (hty : ty ∈ validTypes) :
    matchType (ty ++ r) = some (ty, r) :=
  matchTypeAux_append r hty
    (fun a ha hane => validTypes_not_pre a ha ty hty hane)
    (fun a ha hane => validTypes_not_pre ty hty a ha (fun h => hane h.symm))

lemma colonSplit_eq_some_iff {l r : List Char} : colonSplit l = some r ↔ l = ':' :: r := by
  cases l with
  | nil => simp [colonSplit]
  | cons c rest =>
    by_cases hc : c = ':'
    · subst hc
      simp [colonSplit]
    · simp [colonSplit, hc]

lemma closeParenSplit_eq_some_iff {l r : List Char} :
    closeParenSplit l = some r ↔ l = ')' :: r := by
  cases l with
  | nil => simp [closeParenSplit]
  | cons c rest =>
    by_cases hc : c = ')'
    · subst hc
      simp [closeParenSplit]
    · simp [closeParenSplit, hc]

/-- A run of characters satisfying `p` followed by a failing character is
exactly what `takeWhile` captures. -/
lemma takeWhile_append_of_stop {p : Char → Bool} {c : Char} (hc : p c = false) :
    ∀ {l : List Char}, l.all p = true → ∀ (r : List Char),
      (l ++ c :: r).takeWhile p = l
  | [], _, r => by simp [List.takeWhile_cons, hc]
  | a :: l, hall, r => by
    rw [List.all_cons, Bool.and_eq_true] at hall
    rw [List.cons_append, List.takeWhile_cons, if_pos hall.1,
      takeWhile_append_of_stop hc hall.2 r]

lemma matchScope_sound : ∀ {r sc r2 : List Char},
    matchScope r = some (sc, r2) →
    r = '(' :: (sc ++ ')' :: r2) ∧ sc ≠ [] ∧ sc.all isScopeChar = true := by
  intro r sc r2 h
  match r with
  | [] => simp [matchScope] at h
  | c :: rr =>
    rw [matchScope] at h
    by_cases hc : c = '('
    · rw [if_pos hc] at h
      subst hc
      by_cases hsc : rr.takeWhile isScopeChar = []
      · rw [if_pos hsc] at h
        cases h
      · rw [if_neg hsc] at h
        cases hcp : closeParenSplit (rr.drop (rr.takeWhile isScopeChar).length) with
        | none =>
          rw [hcp] at h
          cases h
        | some r2' =>
          rw [hcp] at h
          rw [Option.some.injEq, Prod.mk.injEq] at h
          obtain ⟨rfl, rfl⟩ := h
          have hdrop : rr.drop (rr.takeWhile isScopeChar).length = ')' :: r2' :=
            closeParenSplit_eq_some_iff.mp hcp
          have hrr : rr.takeWhile isScopeChar ++ rr.drop (rr.takeWhile isScopeChar).length = rr :=
            List.prefix_iff_eq_append.mp (List.takeWhile_prefix _)
          refine ⟨?_, hsc, List.all_takeWhile⟩
          have hx : rr = rr.takeWhile isScopeChar ++ ')' :: r2' := by
            rw [← hdrop, hrr]
          exact congrArg (fun l => '(' :: l) hx
    · rw [if_neg hc] at h
      cases h

lemma matchScope_append {sc : List Char} (r2 : List Char) (hne : sc ≠ [])
    (hall : sc.all isScopeChar = true) :
    matchScope ('(' :: (sc ++ ')' :: r2)) = some (sc, r2) := by
  have htw : (sc ++ ')' :: r2).takeWhile isScopeChar = sc :=
    takeWhile_append_of_stop (by decide) hall r2
  rw [matchScope, if_pos rfl, htw, if_neg hne, List.drop_left]
  simp [closeParenSplit]

lemma matchScope_cons_ne {c : Char} (r : List Char) (hc : c ≠ '(') :
    matchScope (c :: r) = none := by
  rw [matchScope, if_neg hc]

lemma matchBang_bang (r : List Char) : matchBang ('!' :: r) = r := by
  rw [matchBang, if_pos rfl]

lemma matchBang_cons_ne {c : Char} (r : List Char) (hc : c ≠ '!') :
    matchBang (c :: r) = c :: r := by
  rw [matchBang, if_neg hc]

lemma descTailOk_of {d : List Char} (hd : d ≠ []) (hnl : '\n' ∉ d) :
    descTailOk d = true := by
  simp [descTailOk, hd, hnl]

lemma descTailOk_concat_newline {d : List Char} (hd : d ≠ []) (hnl : '\n' ∉ d) :
    descTailOk (d ++ ['\n']) = true := by
  simp [descTailOk, List.getLast?_concat, List.dropLast_concat, hd, hnl]

lemma tailMatch_append {ws d : List Char} (hne : ws ≠ []) (hall : ws.all isPySpace = true)
    (hd : descTailOk d = true) : tailMatch (ws ++ d) = true := by
  rw [tailMatch, List.any_eq_true]
  refine ⟨ws.length, ?_, ?_⟩
  · rw [List.mem_range, List.length_append]
    omega
  · have h1 : 1 ≤ ws.length := List.length_pos.mpr hne
    rw [List.take_left, List.drop_left]
    simp [h1, hall, hd]

lemma tailMatch_sound {s : List Char} (h : tailMatch s = true) :
    ∃ ws d, s = ws ++ d ∧ ws ≠ [] ∧ ws.all isPySpace = true ∧ descTailOk d = true := by
  rw [tailMatch, List.any_eq_true] at h
  obtain ⟨k, hk, hprop⟩ := h
  rw [List.mem_range] at hk
  rw [Bool.and_eq_true, Bool.and_eq_true] at hprop
  obtain ⟨⟨hk1, hall⟩, hd⟩ := hprop
  rw [decide_eq_true_eq] at hk1
  refine ⟨s.take k, s.drop k, (List.take_append_drop k s).symm, ?_, hall, hd⟩
  have : (s.take k).length = k := by
    rw [List.length_take]
    omega
  intro hcon
  rw [hcon] at this
  simp at this
  omega

end TitleValidator

namespace TitleValidator

/-- The assembled `type(scope)?: description` always matches the pattern,
for a valid type, a well-formed scope, and a nonempty newline-free
description. -/
lemma conventionalMatch_stem {ty : List Char} (hty : ty ∈ validTypes)
    {sc : Option (List Char)}
    (hsc : ∀ s, sc = some s → s ≠ [] ∧ s.all isScopeChar = true)
    {d : List Char} (hd : d ≠ []) (hnl : '\n' ∉ d) :
    conventionalMatch (titleStem ty sc ++ d) = true := by
  have htail : tailMatch (' ' :: d) = true := by
    have : (' ' :: d) = [' '] ++ d := rfl
    rw [this]
    exact tailMatch_append (by decide) (by decide) (descTailOk_of hd hnl)
  cases sc with
  | none =>
    have hshape : titleStem ty none ++ d = ty ++ (':' :: ' ' :: d) := by
      simp [titleStem]
    rw [hshape, conventionalMatch, matchType_append _ hty]
    dsimp only
    rw [matchScope_cons_ne _ (by decide), matchBang_cons_ne _ (by decide)]
    rw [show colonSplit (':' :: ' ' :: d) = some (' ' :: d) from
      colonSplit_eq_some_iff.mpr rfl]
    exact htail
  | some s =>
    obtain ⟨hne, hall⟩ := hsc s rfl
    have hshape : titleStem ty (some s) ++ d = ty ++ ('(' :: (s ++ ')' :: (':' :: ' ' :: d))) := by
      simp [titleStem]
    rw [hshape, conventionalMatch, matchType_append _ hty]
    dsimp only
    rw [matchScope_append _ hne hall]
    dsimp only
    rw [matchBang_cons_ne _ (by decide)]
    rw [show colonSplit (':' :: ' ' :: d) = some (' ' :: d) from
      colonSplit_eq_some_iff.mpr rfl]
    exact htail

/-- `is_conventional_format` accepts every assembled title of length at
most 256. -/
lemma is_conv_stem {ty : List Char} (hty : ty ∈ validTypes)
    {sc : Option (List Char)}
    (hsc : ∀ s, sc = some s → s ≠ [] ∧ s.all isScopeChar = true)
    {d : List Char} (hd : d ≠ []) (hnl : '\n' ∉ d)
    (hlen : (titleStem ty sc ++ d).length ≤ 256) :
    is_conventional_format (titleStem ty sc ++ d) = true := by
  have hpos : 1 ≤ ty.length := validTypes_len_pos ty hty
  have hty_ne : ty ≠ [] := by
    intro h
    rw [h] at hpos
    simp at hpos
  have hstem_ne : titleStem ty sc ≠ [] := by
    cases sc <;> simp [titleStem]
  have hne : titleStem ty sc ++ d ≠ [] := List.append_ne_nil_of_left_ne_nil hstem_ne d
  rw [is_conventional_format, if_neg (by push_neg; exact ⟨hne, by omega⟩)]
  exact conventionalMatch_stem hty hsc hd hnl

lemma lowerChar_ne_newline {c : Char} (hc : c ≠ '\n') : lowerChar c ≠ '\n' := by
  unfold lowerChar
  cases hf : lowerTable.find? (fun p => p.1 == c) with
  | none => simpa using hc
  | some p =>
    have hmem : p ∈ lowerTable := List.mem_of_find?_eq_some hf
    have hall : ∀ q ∈ lowerTable, q.2 ≠ '\n' := by decide
    simpa using hall p hmem

/-- `format_title` always produces `stem ++ description'` with the
description part nonempty and newline-free whenever the input description
is. -/
lemma format_title_stem (ty : List Char) (sc : Option (List Char)) (desc : List Char) :
    ∃ d', format_title ty sc desc = titleStem ty sc ++ d' ∧
      (desc ≠ [] → d' ≠ []) ∧ ('\n' ∉ desc → '\n' ∉ d') := by
  rw [format_title.eq_def]
  dsimp only
  set descL := (match desc with
    | [] => ([] : List Char)
    | c :: cs => lowerChar c :: cs) with hdescL
  have hne : desc ≠ [] → descL ≠ [] := by
    cases desc with
    | nil => intro h; exact absurd rfl h
    | cons c cs => intro _; rw [hdescL]; simp
  have hnl : '\n' ∉ desc → '\n' ∉ descL := by
    cases desc with
    | nil => intro _; rw [hdescL]; simp
    | cons c cs =>
      intro h hmem
      rw [hdescL] at hmem
      rcases List.mem_cons.mp hmem with heq | hmem'
      · by_cases hcn : c = '\n'
        · exact h (hcn ▸ List.mem_cons_self _ _)
        · exact absurd heq.symm (lowerChar_ne_newline hcn)
      · exact h (List.mem_cons_of_mem _ hmem')
  by_cases hlen : 256 < (titleStem ty sc ++ descL).length
  · rw [if_pos hlen]
    refine ⟨pySlice descL (256 - ((titleStem ty sc).length : ℤ) - 3) ++ "...".toList, rfl, ?_, ?_⟩
    · intro _
      simp
    · intro h hmem
      rcases List.mem_append.mp hmem with hmem' | hmem'
      · have : '\n' ∈ descL := by
          rw [pySlice] at hmem'
          split_ifs at hmem' <;> exact List.mem_of_mem_take hmem'
        exact hnl h this
      · exact absurd hmem' (by decide)
  · rw [if_neg hlen]
    exact ⟨descL, rfl, hne, hnl⟩

lemma infer_type_mem (d : List Char) : infer_type_from_description d ∈ validTypes := by
  rw [infer_type_from_description]
  split_ifs <;> decide

lemma leadingScopeColon_props {d sc : List Char} (h : leadingScopeColon d = some sc) :
    sc ≠ [] ∧ sc.all isScopeChar = true := by
  rw [leadingScopeColon] at h
  by_cases htw : d.takeWhile isScopeChar = []
  · rw [if_pos htw] at h
    cases h
  · rw [if_neg htw] at h
    cases hcs : colonSplit (d.drop (d.takeWhile isScopeChar).length) with
    | none =>
      rw [hcs] at h
      cases h
    | some r =>
      rw [hcs] at h
      obtain rfl := Option.some.inj h
      exact ⟨htw, List.all_takeWhile⟩

lemma extract_scope_props {d sc : List Char}
    (h : extract_scope_from_description d = some sc) :
    sc ≠ [] ∧ sc.all isScopeChar = true := by
  rw [extract_scope_from_description] at h
  cases hl : leadingScopeColon d with
  | some sc' =>
    rw [hl] at h
    obtain rfl := Option.some.inj h
    exact leadingScopeColon_props hl
  | none =>
    rw [hl] at h
    dsimp only at h
    split_ifs at h <;>
      first
        | (obtain rfl := Option.some.inj h; exact ⟨by decide, by decide⟩)
        | cases h

lemma mem_of_mem_stripChars {c : Char} {s : List Char} (h : c ∈ stripChars s) : c ∈ s := by
  rw [stripChars, List.mem_reverse] at h
  have h1 := (List.dropWhile_sublist _ (l := (s.dropWhile isPySpace).reverse)).mem h
  rw [List.mem_reverse] at h1
  exact (List.dropWhile_sublist _ (l := s)).mem h1

lemma mem_of_mem_capturedDesc {c : Char} {d : List Char} (h : c ∈ capturedDesc d) : c ∈ d := by
  rw [capturedDesc] at h
  split_ifs at h with hif
  · exact (List.dropLast_sublist d).mem h
  · exact h

lemma mem_of_mem_matchBang {c : Char} {l : List Char} (h : c ∈ matchBang l) : c ∈ l := by
  cases l with
  | nil => simp [matchBang] at h
  | cons a r =>
    rw [matchBang] at h
    split_ifs at h with hif
    · exact List.mem_cons_of_mem _ h
    · exact h

end TitleValidator

namespace TitleValidator

lemma mem_of_mem_stripScopeColon {c : Char} {sc d : List Char}
    (h : c ∈ stripScopeColon sc d) : c ∈ d := by
  rw [stripScopeColon] at h
  split_ifs at h with hif
  · exact (List.drop_sublist _ _).mem ((List.dropWhile_sublist _).mem h)
  · exact h

lemma parse_title_components_props {t ty : List Char}
    {sc : Option (List Char)} {d : List Char}
    (h : parse_title_components t = some (ty, sc, d)) :
    ty ∈ validTypes ∧ (∀ s, sc = some s → s ≠ [] ∧ s.all isScopeChar = true) ∧
      (∀ c ∈ d, c ∈ t) := by
  rw [parse_title_components] at h
  cases hmt : matchType t with
  | none =>
    rw [hmt] at h
    cases h
  | some p =>
    obtain ⟨ty', r⟩ := p
    rw [hmt] at h
    dsimp only at h
    obtain ⟨htymem, hteq⟩ := matchType_sound hmt
    cases hms : matchScope r with
    | some q =>
      obtain ⟨sc', r2⟩ := q
      rw [hms] at h
      dsimp only at h
      obtain ⟨hreq, hscne, hscall⟩ := matchScope_sound hms
      cases hcb : colonSplit (matchBang r2) with
      | none =>
        rw [hcb] at h
        cases h
      | some r3 =>
        rw [hcb] at h
        dsimp only at h
        cases hps : parseDescSplit r3 with
        | none =>
          rw [hps] at h
          cases h
        | some k =>
          rw [hps] at h
          dsimp only at h
          rw [Option.some.injEq, Prod.mk.injEq, Prod.mk.injEq] at h
          obtain ⟨rfl, rfl, rfl⟩ := h
          refine ⟨htymem, ?_, ?_⟩
          · intro s hs
            obtain rfl := Option.some.inj hs
            exact ⟨hscne, hscall⟩
          · intro c hc
            have h2 := mem_of_mem_capturedDesc (mem_of_mem_stripChars hc)
            have h3 : c ∈ r3 := (List.drop_sublist _ _).mem h2
            have h4 : c ∈ matchBang r2 := by
              rw [colonSplit_eq_some_iff.mp hcb]
              exact List.mem_cons_of_mem _ h3
            have h5 : c ∈ r2 := mem_of_mem_matchBang h4
            have h6 : c ∈ r := by
              rw [hreq]
              exact List.mem_cons_of_mem _
                (List.mem_append_right _ (List.mem_cons_of_mem _ h5))
            rw [hteq]
            exact List.mem_append_right _ h6
    | none =>
      rw [hms] at h
      dsimp only at h
      cases hcb : colonSplit (matchBang r) with
      | none =>
        rw [hcb] at h
        cases h
      | some r3 =>
        rw [hcb] at h
        dsimp only at h
        cases hps : parseDescSplit r3 with
        | none =>
          rw [hps] at h
          cases h
        | some k =>
          rw [hps] at h
          dsimp only at h
          rw [Option.some.injEq, Prod.mk.injEq, Prod.mk.injEq] at h
          obtain ⟨rfl, rfl, rfl⟩ := h
          refine ⟨htymem, ?_, ?_⟩
          · intro s hs
            cases hs
          intro c hc
          have h2 := mem_of_mem_capturedDesc (mem_of_mem_stripChars hc)
          have h3 : c ∈ r3 := (List.drop_sublist _ _).mem h2
          have h4 : c ∈ matchBang r := by
            rw [colonSplit_eq_some_iff.mp hcb]
            exact List.mem_cons_of_mem _ h3
          have h5 : c ∈ r := mem_of_mem_matchBang h4
          rw [hteq]
          exact List.mem_append_right _ h5

/-- Unfolding of the auto-fix path of `validate_and_format_title`. -/
lemma validate_autofix_eq (t : List Char) (hconv : is_conventional_format t = false) :
    validate_and_format_title t true =
      match parse_title_components t with
      | some (ty, sc, desc) => (format_title ty sc desc, true)
      | none =>
        (format_title (infer_type_from_description t) (extract_scope_from_description t)
          (match extract_scope_from_description t with
            | some sc => stripScopeColon sc t
            | none => t), true) := by
  rw [validate_and_format_title, if_neg (by rw [hconv]; simp)]
  rfl

end TitleValidator

/-- C6 (amended): for every title containing no newline, whose auto-fix
description component is nonempty (or which already matches), and whose
normalized result fits in 256 characters, `validate_and_format_title` with
`auto_fix = true` produces a title matching the conventional grammar and is
idempotent on it.  (As stated the claim is false — see the counterexample:
the empty title normalizes to `"feat: "`, which does not match the grammar,
and a title containing a newline is not normalized idempotently.) -/
theorem title_normalization_grammar_idempotent (t : List Char)
    (hnl : '\n' ∉ t)
    (hd : TitleValidator.is_conventional_format t = true ∨ TitleValidator.pipelineDesc t ≠ [])
    (hlen : (TitleValidator.validate_and_format_title t true).1.length ≤ 256) :
    TitleValidator.is_conventional_format
        ((TitleValidator.validate_and_format_title t true).1) = true ∧
      TitleValidator.validate_and_format_title
          ((TitleValidator.validate_and_format_title t true).1) true
        = ((TitleValidator.validate_and_format_title t true).1, false) := by
  have hmain : TitleValidator.is_conventional_format
      ((TitleValidator.validate_and_format_title t true).1) = true := by
    by_cases hconv : TitleValidator.is_conventional_format t = true
    · rw [TitleValidator.validate_and_format_title, if_pos hconv]
      exact hconv
    · have hconv' : TitleValidator.is_conventional_format t = false := by
        simpa using hconv
      rcases hd with hd | hd
      · exact absurd hd hconv
      rw [TitleValidator.validate_autofix_eq t hconv'] at hlen ⊢
      cases hp : TitleValidator.parse_title_components t with
      | some trip =>
        obtain ⟨ty, sc, desc⟩ := trip
        rw [hp] at hlen
        dsimp only at hlen ⊢
        obtain ⟨hty, hsc, hmem⟩ := TitleValidator.parse_title_components_props hp
        have hdesc_ne : desc ≠ [] := by
          have hpd : TitleValidator.pipelineDesc t = desc := by
            rw [TitleValidator.pipelineDesc, hp]
          rwa [hpd] at hd
        have hdesc_nl : '\n' ∉ desc := fun hin => hnl (hmem _ hin)
        obtain ⟨d', heq, hne', hnl'⟩ := TitleValidator.format_title_stem ty sc desc
        rw [heq] at hlen ⊢
        exact TitleValidator.is_conv_stem hty hsc (hne' hdesc_ne) (hnl' hdesc_nl) hlen
      | none =>
        rw [hp] at hlen
        dsimp only at hlen ⊢
        have hpd : TitleValidator.pipelineDesc t
            = (match TitleValidator.extract_scope_from_description t with
                | some sc => TitleValidator.stripScopeColon sc t
                | none => t) := by
          rw [TitleValidator.pipelineDesc, hp]
        have hty := TitleValidator.infer_type_mem t
        cases hes : TitleValidator.extract_scope_from_description t with
        | none =>
          rw [hpd] at hd
          rw [hes] at hlen hd
          dsimp only at hlen hd ⊢
          have hdesc_ne : t ≠ [] := hd
          obtain ⟨d', heq, hne', hnl'⟩ := TitleValidator.format_title_stem
            (TitleValidator.infer_type_from_description t) none t
          rw [heq] at hlen ⊢
          exact TitleValidator.is_conv_stem hty (by intro s hs; cases hs)
            (hne' hdesc_ne) (hnl' hnl) hlen
        | some sc =>
          rw [hpd] at hd
          rw [hes] at hlen hd
          dsimp only at hlen hd ⊢
          have hdesc_ne : TitleValidator.stripScopeColon sc t ≠ [] := hd
          have hdesc_nl : '\n' ∉ TitleValidator.stripScopeColon sc t :=
            fun hin => hnl (TitleValidator.mem_of_mem_stripScopeColon hin)
          obtain ⟨d', heq, hne', hnl'⟩ := TitleValidator.format_title_stem
            (TitleValidator.infer_type_from_description t) (some sc)
            (TitleValidator.stripScopeColon sc t)
          rw [heq] at hlen ⊢
          refine TitleValidator.is_conv_stem hty ?_ (hne' hdesc_ne) (hnl' hdesc_nl) hlen
          intro s hs
          obtain rfl := Option.some.inj hs
          exact TitleValidator.extract_scope_props hes
  refine ⟨hmain, ?_⟩
  rw [TitleValidator.validate_and_format_title, if_pos hmain]

/-- C6 witness: the malformed title `"add login page"` (no newline, nonempty
description) normalizes to a grammar-matching title, idempotently. -/
theorem title_normalization_grammar_idempotent_witness :
    ('\n' ∉ "add login page".toList ∧
      TitleValidator.pipelineDesc "add login page".toList ≠ [] ∧
      (TitleValidator.validate_and_format_title "add login page".toList true).1.length ≤ 256) ∧
    TitleValidator.is_conventional_format
      ((TitleValidator.validate_and_format_title "add login page".toList true).1) = true :=
  ⟨⟨by decide, by decide, by decide⟩,
    (title_normalization_grammar_idempotent "add login page".toList (by decide)
      (Or.inr (by decide)) (by decide)).1⟩

/-- C6 counterexample: the empty title does not match the grammar, yet its
normalization `"feat: "` does not match the grammar either; and for the
newline-containing title `"hello\nworld"` normalization is not idempotent:
one pass yields `"feat: hello\nworld"`, a second pass yields
`"feat(feat): hello\nworld"`. -/
theorem title_normalization_counterexample :
    (TitleValidator.is_conventional_format "".toList = false ∧
      (TitleValidator.validate_and_format_title "".toList true).1 = "feat: ".toList ∧
      TitleValidator.is_conventional_format
        ((TitleValidator.validate_and_format_title "".toList true).1) = false) ∧
    (TitleValidator.validate_and_format_title
        ((TitleValidator.validate_and_format_title "hello\nworld".toList true).1) true).1
      ≠ (TitleValidator.validate_and_format_title "hello\nworld".toList true).1 := by
  refine ⟨⟨by decide, by decide, by decide⟩, by decide⟩

/-- C7 counterexample: the code accepts `"perf: improve speed"` although
`perf` is not in the claim's type set, and rejects `"feature: add login"`
although the claim's grammar accepts it — so acceptance is not equivalent
to the claimed grammar in either direction. -/
theorem is_conventional_format_counterexample :
    TitleValidator.is_conventional_format "perf: improve speed".toList = true ∧
    TitleValidator.claimedGrammarCheck "perf: improve speed".toList = false ∧
    TitleValidator.is_conventional_format "feature: add login".toList = false ∧
    TitleValidator.claimedGrammarCheck "feature: add login".toList = true := by
  refine ⟨by decide, by decide, by decide, by decide⟩

/-- C7 (amended): a title is accepted by `is_conventional_format` if and
only if it has at most 256 characters and decomposes as
`type(scope)?!?:` followed by whitespace, a nonempty newline-free
description, and an optional final newline, with `type` drawn from
`{feat, fix, docs, style, refactor, perf, test, chore, ci, build}` and the
scope a nonempty string over `[a-z0-9-]`. -/
theorem is_conventional_format_iff_grammar (t : List Char) :
    TitleValidator.is_conventional_format t = true ↔ TitleValidator.conventionalGrammar t := by
  constructor
  · intro h
    rw [TitleValidator.is_conventional_format] at h
    split_ifs at h with hcond
    push_neg at hcond
    refine ⟨by omega, ?_⟩
    rw [TitleValidator.conventionalMatch] at h
    cases hmt : TitleValidator.matchType t with
    | none =>
      rw [hmt] at h
      cases h
    | some p =>
      obtain ⟨ty, r⟩ := p
      rw [hmt] at h
      dsimp only at h
      obtain ⟨htymem, hteq⟩ := TitleValidator.matchType_sound hmt
      -- the rest after the optional scope
      have main : ∀ sc rest, (∀ s, sc = some s → s ≠ [] ∧ s.all TitleValidator.isScopeChar = true) →
          r = TitleValidator.scopePart sc ++ rest →
          (match TitleValidator.colonSplit (TitleValidator.matchBang rest) with
            | some r3 => TitleValidator.tailMatch r3
            | none => false) = true →
          ∃ (ty' : List Char) (sc' : Option (List Char)) (bang : Bool)
            (ws desc : List Char) (nl : Bool),
            ty' ∈ TitleValidator.validTypes ∧
            (∀ s, sc' = some s → s ≠ [] ∧ s.all TitleValidator.isScopeChar = true) ∧
            ws ≠ [] ∧ ws.all TitleValidator.isPySpace = true ∧
            desc ≠ [] ∧ '\n' ∉ desc ∧
            t = ty' ++ TitleValidator.scopePart sc' ++ (if bang = true then ['!'] else []) ++
              ':' :: (ws ++ desc ++ (if nl = true then ['\n'] else [])) := by
        intro sc rest hscp hr hmatch
        -- peel the optional bang
        have hbang : ∃ bang rest2, rest = (if bang = true then ['!'] else []) ++ rest2 ∧
            TitleValidator.matchBang rest = rest2 := by
          cases rest with
          | nil => exact ⟨false, [], by simp, rfl⟩
          | cons c rr =>
            by_cases hc : c = '!'
            · subst hc
              exact ⟨true, rr, by simp, TitleValidator.matchBang_bang rr⟩
            · exact ⟨false, c :: rr, by simp, TitleValidator.matchBang_cons_ne rr hc⟩
        obtain ⟨bang, rest2, hrest, hmb⟩ := hbang
        rw [hmb] at hmatch
        cases hcb : TitleValidator.colonSplit rest2 with
        | none =>
          rw [hcb] at hmatch
          cases hmatch
        | some r3 =>
          rw [hcb] at hmatch
          have hrest2 : rest2 = ':' :: r3 := TitleValidator.colonSplit_eq_some_iff.mp hcb
          obtain ⟨ws, d, hr3, hwsne, hwsall, hdok⟩ := TitleValidator.tailMatch_sound hmatch
          simp only [TitleValidator.descTailOk, Bool.and_eq_true, Bool.or_eq_true,
            decide_eq_true_eq] at hdok
          obtain ⟨hdne, hdcase⟩ := hdok
          rcases hdcase with hdnl | ⟨⟨hlast, hdl_ne⟩, hdl_nl⟩
          · refine ⟨ty, sc, bang, ws, d, false, htymem, hscp, hwsne, hwsall, hdne, hdnl, ?_⟩
            rw [hteq, hr, hrest, hrest2, hr3]
            simp [List.append_assoc]
          · obtain ⟨d', rfl⟩ := List.getLast?_eq_some_iff.mp hlast
            rw [List.dropLast_concat] at hdl_ne hdl_nl
            refine ⟨ty, sc, bang, ws, d', true, htymem, hscp, hwsne, hwsall, hdl_ne, hdl_nl, ?_⟩
            rw [hteq, hr, hrest, hrest2, hr3]
            simp [List.append_assoc]
      cases hms : TitleValidator.matchScope r with
      | some q =>
        obtain ⟨sc', r2⟩ := q
        rw [hms] at h
        dsimp only at h
        obtain ⟨hreq, hscne, hscall⟩ := TitleValidator.matchScope_sound hms
        exact main (some sc') r2
          (fun s hs => by obtain rfl := Option.some.inj hs; exact ⟨hscne, hscall⟩)
          (by rw [hreq]; simp [TitleValidator.scopePart]) h
      | none =>
        rw [hms] at h
        dsimp only at h
        exact main none r (by intro s hs; cases hs) (by simp [TitleValidator.scopePart]) h
  · rintro ⟨hlen, ty, sc, bang, ws, desc, nl, htymem, hscp, hwsne, hwsall, hdne, hdnl, hshape⟩
    have htyne : ty ≠ [] := by
      intro hcon
      have := TitleValidator.validTypes_len_pos ty htymem
      rw [hcon] at this
      simp at this
    have htne : t ≠ [] := by
      rw [hshape]
      exact List.append_ne_nil_of_left_ne_nil
        (List.append_ne_nil_of_left_ne_nil (List.append_ne_nil_of_left_ne_nil htyne _) _) _
    rw [TitleValidator.is_conventional_format, if_neg (by push_neg; exact ⟨htne, by omega⟩)]
    have hdok : TitleValidator.descTailOk (desc ++ (if nl = true then ['\n'] else [])) = true := by
      cases nl with
      | false =>
        simp only [if_neg Bool.false_ne_true, List.append_nil]
        exact TitleValidator.descTailOk_of hdne hdnl
      | true =>
        simp only [if_pos rfl]
        exact TitleValidator.descTailOk_concat_newline hdne hdnl
    have htail : TitleValidator.tailMatch (ws ++ (desc ++ (if nl = true then ['\n'] else []))) = true :=
      TitleValidator.tailMatch_append hwsne hwsall hdok
    have hafter : ∀ rest2, TitleValidator.colonSplit
        (TitleValidator.matchBang ((if bang = true then ['!'] else []) ++ ':' :: rest2)) = some rest2 := by
      intro rest2
      cases bang with
      | false =>
        simp only [if_neg Bool.false_ne_true, List.nil_append]
        rw [TitleValidator.matchBang_cons_ne _ (by decide)]
        exact TitleValidator.colonSplit_eq_some_iff.mpr rfl
      | true =>
        rw [if_pos rfl, List.singleton_append, TitleValidator.matchBang_bang]
        exact TitleValidator.colonSplit_eq_some_iff.mpr rfl
    cases sc with
    | none =>
      have hshape' : t = ty ++ ((if bang = true then ['!'] else []) ++
          ':' :: (ws ++ desc ++ (if nl = true then ['\n'] else []))) := by
        rw [hshape]
        simp [TitleValidator.scopePart]
      rw [TitleValidator.conventionalMatch, hshape', TitleValidator.matchType_append _ htymem]
      dsimp only
      have hms : TitleValidator.matchScope ((if bang = true then ['!'] else []) ++
          ':' :: (ws ++ desc ++ (if nl = true then ['\n'] else []))) = none := by
        cases bang with
        | false =>
          simp only [if_neg Bool.false_ne_true, List.nil_append]
          exact TitleValidator.matchScope_cons_ne _ (by decide)
        | true =>
          rw [if_pos rfl, List.singleton_append]
          exact TitleValidator.matchScope_cons_ne _ (by decide)
      rw [hms]
      dsimp only
      rw [hafter (ws ++ desc ++ (if nl = true then ['\n'] else []))]
      dsimp only
      rw [List.append_assoc]
      exact htail
    | some s =>
      obtain ⟨hsne, hsall⟩ := hscp s rfl
      have hshape' : t = ty ++ ('(' :: (s ++ ')' :: ((if bang = true then ['!'] else []) ++
          ':' :: (ws ++ desc ++ (if nl = true then ['\n'] else []))))) := by
        rw [hshape]
        simp [TitleValidator.scopePart]
      rw [TitleValidator.conventionalMatch, hshape', TitleValidator.matchType_append _ htymem]
      dsimp only
      rw [TitleValidator.matchScope_append _ hsne hsall]
      dsimp only
      rw [hafter (ws ++ desc ++ (if nl = true then ['\n'] else []))]
      dsimp only
      rw [List.append_assoc]
      exact htail

namespace DuplicateChecker

set_option maxRecDepth 10000

lemma similarity_login_flow :
    calculate_similarity "add login flow".toList "add login".toList = 18/23 := by
  rw [calculate_similarity,
    show "add login flow".toList.map TitleValidator.lowerChar = "add login flow".toList from by decide,
    show "add login".toList.map TitleValidator.lowerChar = "add login".toList from by decide,
    show matchSum "add login flow".toList "add login".toList = 9 from by decide,
    show ("add login flow".toList).length = 14 from by decide,
    show ("add login".toList).length = 9 from by decide]
  norm_num

lemma similarity_timeout :
    calculate_similarity "add login flow".toList "timeout".toList = 2/21 := by
  rw [calculate_similarity,
    show "add login flow".toList.map TitleValidator.lowerChar = "add login flow".toList from by decide,
    show "timeout".toList.map TitleValidator.lowerChar = "timeout".toList from by decide,
    show matchSum "add login flow".toList "timeout".toList = 1 from by decide,
    show ("add login flow".toList).length = 14 from by decide,
    show ("timeout".toList).length = 7 from by decide]
  norm_num

/-- Evaluation of the similar-issue collection for the spec scenario at an
arbitrary threshold. -/
lemma collectSimilar_scenario (threshold : ℚ) :
    collectSimilar (normalize_title "feat(auth): add login flow".toList) threshold
        [⟨"feat(auth): add login".toList⟩, ⟨"fix(db): timeout".toList⟩]
      = (if threshold ≤ 18/23 then
          [(⟨"feat(auth): add login".toList⟩, 18/23)] else []) ++
        (if threshold ≤ 2/21 then [(⟨"fix(db): timeout".toList⟩, 2/21)] else []) := by
  rw [show normalize_title "feat(auth): add login flow".toList = "add login flow".toList from by decide]
  rw [collectSimilar]
  dsimp only
  rw [show normalize_title "feat(auth): add login".toList = "add login".toList from by decide,
    similarity_login_flow]
  rw [collectSimilar]
  dsimp only
  rw [show normalize_title "fix(db): timeout".toList = "timeout".toList from by decide,
    similarity_timeout]
  rw [collectSimilar]
  split_ifs <;> rfl

end DuplicateChecker

/-- C5 counterexample: at threshold `0.8` the duplicate check reports NO
duplicate at all for the spec's scenario — the similarity between the
normalized titles `"add login flow"` and `"add login"` is
`2·9/(14+9) = 18/23 ≈ 0.783 < 0.8` — whereas the claim says the first item
is flagged. -/
theorem check_for_duplicates_counterexample :
    DuplicateChecker.check_for_duplicates "feat(auth): add login flow".toList
        [⟨"feat(auth): add login".toList⟩, ⟨"fix(db): timeout".toList⟩] (8/10)
      = (false, []) ∧
    DuplicateChecker.calculate_similarity
        (DuplicateChecker.normalize_title "feat(auth): add login flow".toList)
        (DuplicateChecker.normalize_title "feat(auth): add login".toList) = 18/23 ∧
    ¬ ((8 : ℚ)/10 ≤ 18/23) := by
  refine ⟨?_, ?_, by norm_num⟩
  · rw [DuplicateChecker.check_for_duplicates, DuplicateChecker.find_similar_issues,
      DuplicateChecker.collectSimilar_scenario]
    rw [if_neg (by norm_num), if_neg (by norm_num)]
    rfl
  · rw [show DuplicateChecker.normalize_title "feat(auth): add login flow".toList
        = "add login flow".toList from by decide,
      show DuplicateChecker.normalize_title "feat(auth): add login".toList
        = "add login".toList from by decide]
    exact DuplicateChecker.similarity_login_flow

/-- C5 (amended): in the spec's scenario the normalized similarity to the
first item is exactly `18/23 ≈ 0.783`, so at threshold `0.8` no duplicate is
reported, while at any threshold at or below `18/23` — e.g. `0.75` — the
check reports a duplicate with exactly the first item (the second item's
similarity is `2/21`). -/
theorem check_for_duplicates_scenario :
    DuplicateChecker.check_for_duplicates "feat(auth): add login flow".toList
        [⟨"feat(auth): add login".toList⟩, ⟨"fix(db): timeout".toList⟩] (3/4)
      = (true, [(⟨"feat(auth): add login".toList⟩, 18/23)]) ∧
    DuplicateChecker.check_for_duplicates "feat(auth): add login flow".toList
        [⟨"feat(auth): add login".toList⟩, ⟨"fix(db): timeout".toList⟩] (8/10)
      = (false, []) := by
  constructor
  · rw [DuplicateChecker.check_for_duplicates, DuplicateChecker.find_similar_issues,
      DuplicateChecker.collectSimilar_scenario]
    rw [if_pos (by norm_num), if_neg (by norm_num)]
    rfl
  · rw [DuplicateChecker.check_for_duplicates, DuplicateChecker.find_similar_issues,
      DuplicateChecker.collectSimilar_scenario]
    rw [if_neg (by norm_num), if_neg (by norm_num)]
    rfl

namespace Analyzer

lemma innerLoop_spec (maxFunctions maxChars : ℕ) (relPath : List Char) :
    ∀ (ds : List CodeDefn) (total count : ℕ) (acc : List (List Char × CodeDefn)),
      total = excerptChars acc → total ≤ maxChars →
      (innerLoop maxFunctions maxChars relPath ds total count acc).2.1
          = excerptChars (innerLoop maxFunctions maxChars relPath ds total count acc).1 ∧
        (innerLoop maxFunctions maxChars relPath ds total count acc).2.1 ≤ maxChars ∧
        ∀ p ∈ (innerLoop maxFunctions maxChars relPath ds total count acc).1,
          p ∈ acc ∨ (p.1 = relPath ∧ p.2 ∈ ds)
  | [], total, count, acc, hrep, hle => by
    rw [innerLoop]
    exact ⟨hrep, hle, fun p hp => Or.inl hp⟩
  | d :: ds, total, count, acc, hrep, hle => by
    rw [innerLoop]
    by_cases hcount : maxFunctions ≤ count
    · rw [if_pos hcount]
      exact ⟨hrep, hle, fun p hp => Or.inl hp⟩
    · rw [if_neg hcount]
      by_cases hchars : maxChars < total + d.code.length
      · rw [if_pos hchars]
        exact ⟨hrep, hle, fun p hp => Or.inl hp⟩
      · rw [if_neg hchars]
        have hrep' : total + d.code.length = excerptChars (acc ++ [(relPath, d)]) := by
          rw [excerptChars, List.map_append, List.sum_append]
          rw [excerptChars] at hrep
          simp [hrep]
        obtain ⟨h1, h2, h3⟩ := innerLoop_spec maxFunctions maxChars relPath ds
          (total + d.code.length) (count + 1) (acc ++ [(relPath, d)]) hrep' (by omega)
        refine ⟨h1, h2, fun p hp => ?_⟩
        rcases h3 p hp with hmem | hnew
        · rcases List.mem_append.mp hmem with hmem' | hmem'
          · exact Or.inl hmem'
          · rw [List.mem_singleton] at hmem'
            subst hmem'
            exact Or.inr ⟨rfl, List.mem_cons_self _ _⟩
        · exact Or.inr ⟨hnew.1, List.mem_cons_of_mem _ hnew.2⟩

lemma outerLoop_spec (maxFunctions maxChars : ℕ) :
    ∀ (fs : List PyFile) (total count : ℕ) (acc : List (List Char × CodeDefn)),
      total = excerptChars acc → total ≤ maxChars →
      excerptChars (outerLoop maxFunctions maxChars fs total count acc) ≤ maxChars ∧
        ∀ p ∈ outerLoop maxFunctions maxChars fs total count acc,
          p ∈ acc ∨ ∃ f ∈ fs, p.1 = f.relPath ∧ p.2 ∈ f.defns
  | [], total, count, acc, hrep, hle => by
    rw [outerLoop]
    exact ⟨hrep ▸ hle, fun p hp => Or.inl hp⟩
  | f :: fs, total, count, acc, hrep, hle => by
    rw [outerLoop]
    by_cases hsuf : f.suffix ≠ ".py".toList
    · rw [if_pos hsuf]
      obtain ⟨h1, h2⟩ := outerLoop_spec maxFunctions maxChars fs total count acc hrep hle
      refine ⟨h1, fun p hp => ?_⟩
      rcases h2 p hp with hmem | ⟨g, hg, hp1, hp2⟩
      · exact Or.inl hmem
      · exact Or.inr ⟨g, List.mem_cons_of_mem _ hg, hp1, hp2⟩
    · rw [if_neg hsuf]
      by_cases hdef : f.defns = []
      · rw [if_pos hdef]
        obtain ⟨h1, h2⟩ := outerLoop_spec maxFunctions maxChars fs total count acc hrep hle
        refine ⟨h1, fun p hp => ?_⟩
        rcases h2 p hp with hmem | ⟨g, hg, hp1, hp2⟩
        · exact Or.inl hmem
        · exact Or.inr ⟨g, List.mem_cons_of_mem _ hg, hp1, hp2⟩
      · rw [if_neg hdef]
        obtain ⟨hi1, hi2, hi3⟩ := innerLoop_spec maxFunctions maxChars f.relPath f.defns
          total count acc hrep hle
        have hfrom : ∀ p ∈ (innerLoop maxFunctions maxChars f.relPath f.defns total count acc).1,
            p ∈ acc ∨ ∃ g ∈ f :: fs, p.1 = g.relPath ∧ p.2 ∈ g.defns := by
          intro p hp
          rcases hi3 p hp with hmem | hnew
          · exact Or.inl hmem
          · exact Or.inr ⟨f, List.mem_cons_self _ _, hnew.1, hnew.2⟩
        by_cases hstop : maxFunctions ≤ (innerLoop maxFunctions maxChars f.relPath f.defns
            total count acc).2.2 ∨ maxChars ≤ (innerLoop maxFunctions maxChars f.relPath
            f.defns total count acc).2.1
        · rw [if_pos hstop]
          exact ⟨hi1 ▸ hi2, hfrom⟩
        · rw [if_neg hstop]
          obtain ⟨h1, h2⟩ := outerLoop_spec maxFunctions maxChars fs _ _ _ hi1 hi2
          refine ⟨h1, fun p hp => ?_⟩
          rcases h2 p hp with hmem | ⟨g, hg, hp1, hp2⟩
          · exact hfrom p hmem
          · exact Or.inr ⟨g, List.mem_cons_of_mem _ hg, hp1, hp2⟩

end Analyzer

/-- C8: for every character budget, every set of candidate files (with
whatever definitions tree-sitter extracts from them for whatever keyword
list), and every function cap, the total character count of the code
excerpts selected by `read_code_intelligently` never exceeds `max_chars`,
and every selected excerpt is one of the input definitions taken whole
(never truncated mid-body). -/
theorem read_code_intelligently_budget (files : List Analyzer.PyFile)
    (maxFunctions maxChars : ℕ) :
    Analyzer.excerptChars (Analyzer.read_code_intelligently files maxFunctions maxChars)
        ≤ maxChars ∧
      ∀ p ∈ Analyzer.read_code_intelligently files maxFunctions maxChars,
        ∃ f ∈ files, p.1 = f.relPath ∧ p.2 ∈ f.defns := by
  obtain ⟨h1, h2⟩ := Analyzer.outerLoop_spec maxFunctions maxChars files 0 0 []
    (by simp [Analyzer.excerptChars]) (by omega)
  refine ⟨h1, fun p hp => ?_⟩
  rcases h2 p hp with hmem | hgood
  · simp at hmem
  · exact hgood

/-- C9 (amended): when the response text can nowhere be parsed as JSON —
the fenced block, if any, fails `json.loads`, and so does the whole text —
`_parse_analysis_response` returns the safe default record, with
`is_implemented = false` and `confidence = 0.0`, and (being a total
function in this model, mirroring that the code catches `JSONDecodeError`)
raises nothing to its caller. The original claim's wording — any text
"that cannot be parsed as the expected JSON record" — is refuted by the
counterexample: a text that parses as some other JSON value is returned
as-is, not replaced by the default. -/
theorem parse_analysis_response_fallback (text : List Char)
    (hfenced : ∀ inner, GeminiClient.extractFenced text = some inner →
      GeminiClient.jsonLoads inner = none)
    (hdirect : GeminiClient.jsonLoads text = none) :
    GeminiClient.parse_analysis_response text = GeminiClient.defaultAnalysisResult ∧
      GeminiClient.objLookup ("is_implemented".toList)
          (GeminiClient.parse_analysis_response text) = some (GeminiClient.Json.bool false) ∧
      GeminiClient.objLookup ("confidence".toList)
          (GeminiClient.parse_analysis_response text) = some (GeminiClient.Json.num 0) := by
  have hmain : GeminiClient.parse_analysis_response text
      = GeminiClient.defaultAnalysisResult := by
    rw [GeminiClient.parse_analysis_response]
    cases hx : GeminiClient.extractFenced text with
    | none =>
      dsimp only
      rw [hdirect]
    | some inner =>
      dsimp only
      rw [hfenced inner hx, hdirect]
  rw [hmain]
  exact ⟨rfl, rfl, rfl⟩

/-- Witness for C9: on the text "not valid json" no fenced block exists
and the direct parse fails, so the default record is returned. -/
theorem parse_analysis_response_fallback_witness :
    GeminiClient.jsonLoads ("not valid json".toList) = none ∧
      GeminiClient.parse_analysis_response ("not valid json".toList)
        = GeminiClient.defaultAnalysisResult :=
  ⟨rfl, (parse_analysis_response_fallback ("not valid json".toList)
    (fun inner h => Option.noConfusion
      (show (none : Option (List Char)) = some inner from h))
    rfl).1⟩

/-- C9 counterexample: the text "[]" cannot be parsed as the expected
JSON record (it is a list, not a dict), yet `_parse_analysis_response`
returns that list as-is — not the safe default with
`is_implemented = false` — because `json.loads` succeeds on it and the
fallback only triggers on `JSONDecodeError`. -/
theorem parse_analysis_response_counterexample :
    GeminiClient.parse_analysis_response ("[]".toList) = GeminiClient.Json.arr [] ∧
      GeminiClient.Json.arr [] ≠ GeminiClient.defaultAnalysisResult :=
  ⟨rfl, fun h => GeminiClient.Json.noConfusion h⟩
